import Mathlib

/-!
Verification of the frames repository's version-resolution, slot-selection,
inheritance and mutation logic.

Shallow embedding conventions:

* the `Version_requires` table is a `List (ℕ × ℕ)` of
  `(version_id, required_version_id)` edges;
* version-id sets (`frozenset` in the source) are `Finset ℕ`;
* the recursive SQL CTE in `version.get_all_required_versions`
  (src/frames.py lines 129-171) is a least fixpoint; it is embedded as a
  bounded iteration of a monotone step function, which provably reaches
  the fixpoint;
* Python dicts keyed by strings are association lists `List (String × _)`
  with distinct keys where relevant;
* Python `AssertionError` / `AttributeError` raising code is embedded with
  `Except`, the error value carrying the data mentioned in the message.
-/

namespace Frames

/-! ### Version graph resolver (src/frames.py lines 129-171, 304-409) -/

/-- One `Version_requires` edge relation: `(a, b) ∈ edges` means version `a`
directly requires version `b`. -/
def edgeOf (edges : List (ℕ × ℕ)) (a b : ℕ) : Prop := (a, b) ∈ edges

instance (edges : List (ℕ × ℕ)) (a b : ℕ) : Decidable (edgeOf edges a b) := by
  unfold edgeOf; infer_instance

/-- All direct requirement targets of version `a`
(the rows `SELECT required_version_id FROM version_requires WHERE version_id = a`). -/
def targets (edges : List (ℕ × ℕ)) (a : ℕ) : Finset ℕ :=
  ((edges.filter (fun e => decide (e.1 = a))).map Prod.snd).toFinset

/-- One round of the recursive CTE `req` in `get_all_required_versions`
(src/frames.py lines 134-147): every direct requirement target of an
already-reached version becomes reached. -/
def stepR (edges : List (ℕ × ℕ)) (X : Finset ℕ) : Finset ℕ :=
  X ∪ ((edges.filter (fun e => decide (e.1 ∈ X))).map Prod.snd).toFinset

/-- Iterate `stepR` a given number of times. -/
def iterR (edges : List (ℕ × ℕ)) : ℕ → Finset ℕ → Finset ℕ
  | 0, X => X
  | n + 1, X => iterR edges n (stepR edges X)

/-- A finite superset of everything `stepR` can ever reach from `S`:
`S` itself plus every edge target. -/
def universeR (edges : List (ℕ × ℕ)) (S : Finset ℕ) : Finset ℕ :=
  S ∪ (edges.map Prod.snd).toFinset

/-- The set of versions reached from the start set `S` by following `Requires`
edges zero or more times; this is the least fixpoint computed by the
recursive CTE of `get_all_required_versions`, obtained here by iterating
`stepR` to saturation (`universeR.card` rounds always suffice). -/
def reachSet (edges : List (ℕ × ℕ)) (S : Finset ℕ) : Finset ℕ :=
  iterR edges (universeR edges S).card S

/-- The `required_map` built by `get_all_required_versions`
(src/frames.py lines 149-164): for each version `v` reached by the CTE that
has at least one outgoing `Requires` edge, `fill_req` closes its direct
targets transitively, i.e. `required_map[v]` becomes every version reachable
from `v` by one or more edges, which is `reachSet` started from
`targets v`.  A version absent from the Python dict maps to `∅` here, which
matches every membership test `v in required_map and x in required_map[v]`
performed by the source. -/
def required_map_of (edges : List (ℕ × ℕ)) (S : Finset ℕ) (v : ℕ) : Finset ℕ :=
  if v ∈ reachSet edges S ∧ targets edges v ≠ ∅ then reachSet edges (targets edges v)
  else ∅

/-- The set of keys of the Python `required_map` dict: versions reached by the
CTE that have at least one outgoing edge. -/
def required_map_keys (edges : List (ℕ × ℕ)) (S : Finset ℕ) : Finset ℕ :=
  (reachSet edges S).filter (fun v => targets edges v ≠ ∅)

/-- Embedding of `version.get_all_required_versions` (src/frames.py lines
129-171).  Returns the pair `(all_required, required_map)` exactly as the
source builds them: `all_required` starts from the active `version_ids` set
`S` and adds, for every key of `required_map`, the key and its value set. -/
def get_all_required_versions (edges : List (ℕ × ℕ)) (S : Finset ℕ) :
    Finset ℕ × (ℕ → Finset ℕ) :=
  (S ∪ (required_map_keys edges S).biUnion
      (fun v => insert v (required_map_of edges S v)),
   required_map_of edges S)

/-- Embedding of `version.better_fit` (src/frames.py lines 379-409).  The two
slot-id arguments are accepted and ignored exactly as in the source.  The
early `return False` taken at the first `worse` pair is folded into a single
test for the existence of such a pair (the returned value is `False` either
way, and the counters are only consulted when no such pair exists).  The
loop counters are written inline: `num_matches` is the number of pairs with
`v == other_v`, i.e. the cardinality of the intersection, and `num_better`
is the number of pairs with `v != other_v` and `other_v` in
`required_map[v]`, i.e. the cardinality of the filtered product. -/
def better_fit (required_map : ℕ → Finset ℕ) (_slot_id : ℕ) (versions : Finset ℕ)
    (_other_slot_id : ℕ) (other_versions : Finset ℕ) : Bool :=
  if other_versions.card > versions.card then false
  else if ∃ v ∈ versions, ∃ w ∈ other_versions,
      v ≠ w ∧ w ∉ required_map v ∧ v ∈ required_map w then false
  else if ((versions ×ˢ other_versions).filter
        (fun p => p.1 ≠ p.2 ∧ p.2 ∈ required_map p.1)).card
      + (versions ∩ other_versions).card < other_versions.card then false
  else if (versions ∩ other_versions).card = other_versions.card
      ∧ other_versions.card = versions.card then false
  else decide (((versions ×ˢ other_versions).filter
      (fun p => p.1 ≠ p.2 ∧ p.2 ∈ required_map p.1)).card ≠ 0
    ∨ versions.card > other_versions.card)

/-- One candidate of a `(frame_id, name, value_order)` group inside
`select_best_matches`: the tuple `(slot_id, value, desired, version_ids)`
built at src/frames.py lines 327-332.  `value` is `none` for the undesired
rows whose SQL `value` column is `NULL`. -/
structure Candidate where
  slot_id : ℕ
  value : Option String
  desired : Bool
  versions : Finset ℕ
deriving DecidableEq

/-- The inner `for slot_id2 ... in matching_slots` loop of
`select_best_matches` (src/frames.py lines 349-354): candidate `c` survives
iff no other candidate (by slot id) fails the `better_fit` test against it. -/
def survives (required_map : ℕ → Finset ℕ) (all : List Candidate) (c : Candidate) :
    Bool :=
  all.all (fun c2 => c2.slot_id == c.slot_id
    || better_fit required_map c.slot_id c.versions c2.slot_id c2.versions)

/-- Errors raised by `select_best_matches`; each error names the candidates
(slot ids and version sets) exactly as the `AssertionError` messages do. -/
inductive SelectError where
  | impossibleConflict (cands : List Candidate)
  | slotVersionConflict (cands : List Candidate)
deriving DecidableEq

/-- The outer `for slot_id ... in matching_slots` loop of
`select_best_matches` (src/frames.py lines 344-364): scan the candidates,
keeping the unique survivor as `best_match` and raising the impossible
conflict when a second survivor shows up. -/
def scan_cands (required_map : ℕ → Finset ℕ) (all : List Candidate) :
    List Candidate → Option Candidate → Except SelectError (Option Candidate)
  | [], best => .ok best
  | c :: rest, best =>
    if survives required_map all c then
      match best with
      | some _ => .error (.impossibleConflict all)
      | none => scan_cands required_map all rest (some c)
    else scan_cands required_map all rest best

/-- The body of `select_best_matches` for one `(frame_id, name, value_order)`
group (src/frames.py lines 324-376): filter the candidates to those whose
version set is a subset of `required_versions`; a single candidate wins
outright; with several, run the scan; no survivor raises the slot version
conflict.  The result carries the winning `(slot_id, value)` when the winner
is a desired row. -/
def select_group (required_map : ℕ → Finset ℕ) (required_versions : Finset ℕ)
    (group : List Candidate) : Except SelectError (Option (ℕ × Option String)) :=
  match group.filter (fun c => decide (c.versions ⊆ required_versions)) with
  | [] => .ok none
  | [c] => .ok (if c.desired then some (c.slot_id, c.value) else none)
  | matching =>
    match scan_cands required_map matching matching none with
    | .error e => .error e
    | .ok (some best) =>
      .ok (if best.desired then some (best.slot_id, best.value) else none)
    | .ok none => .error (.slotVersionConflict matching)

/-- Embedding of `version.select_best_matches` (src/frames.py lines 304-377)
at group granularity: the input rows have already been sorted and grouped by
their `(frame_id, name.upper(), value_order)` key with each slot id's version
set collected (lines 312-332); the per-group selection then appends the
winning `(frame_id, slot_id, value)` triples in order. -/
def select_best_matches (required_map : ℕ → Finset ℕ) (required_versions : Finset ℕ)
    (groups : List ((ℕ × String × Option ℚ) × List Candidate)) :
    Except SelectError (List (ℕ × ℕ × Option String)) :=
  groups.foldlM (fun acc g => do
      match ← select_group required_map required_versions g.2 with
      | some (sid, v) => pure (acc ++ [(g.1.1, sid, v)])
      | none => pure acc) []

/-! ### Fixpoint lemmas for `reachSet` -/

theorem subset_stepR (edges : List (ℕ × ℕ)) (X : Finset ℕ) : X ⊆ stepR edges X :=
  Finset.subset_union_left

theorem mem_stepR {edges : List (ℕ × ℕ)} {X : Finset ℕ} {w : ℕ} :
    w ∈ stepR edges X ↔ w ∈ X ∨ ∃ a ∈ X, (a, w) ∈ edges := by
  simp only [stepR, Finset.mem_union, List.mem_toFinset, List.mem_map,
    List.mem_filter, decide_eq_true_eq]
  constructor
  · rintro (h | ⟨⟨a, b⟩, ⟨hmem, hX⟩, rfl⟩)
    · exact Or.inl h
    · exact Or.inr ⟨a, hX, hmem⟩
  · rintro (h | ⟨a, hX, hmem⟩)
    · exact Or.inl h
    · exact Or.inr ⟨(a, w), ⟨hmem, hX⟩, rfl⟩

theorem stepR_mono (edges : List (ℕ × ℕ)) {X Y : Finset ℕ} (h : X ⊆ Y) :
    stepR edges X ⊆ stepR edges Y := by
  intro w hw
  rcases mem_stepR.1 hw with h1 | ⟨a, ha, he⟩
  · exact mem_stepR.2 (Or.inl (h h1))
  · exact mem_stepR.2 (Or.inr ⟨a, h ha, he⟩)

theorem subset_iterR (edges : List (ℕ × ℕ)) (n : ℕ) (X : Finset ℕ) :
    X ⊆ iterR edges n X := by
  induction n generalizing X with
  | zero => exact subset_refl X
  | succ n ih => exact (subset_stepR edges X).trans (ih (stepR edges X))

theorem iterR_mono (edges : List (ℕ × ℕ)) (n : ℕ) {X Y : Finset ℕ} (h : X ⊆ Y) :
    iterR edges n X ⊆ iterR edges n Y := by
  induction n generalizing X Y with
  | zero => exact h
  | succ n ih => exact ih (stepR_mono edges h)

theorem iterR_succ_eq (edges : List (ℕ × ℕ)) (n : ℕ) (X : Finset ℕ) :
    iterR edges (n + 1) X = stepR edges (iterR edges n X) := by
  induction n generalizing X with
  | zero => rfl
  | succ n ih =>
    show iterR edges (n + 1) (stepR edges X) = _
    rw [ih (stepR edges X)]
    rfl

theorem iterR_subset_of_closed (edges : List (ℕ × ℕ)) (n : ℕ) {X U : Finset ℕ}
    (hX : X ⊆ U) (hU : ∀ a ∈ U, ∀ b, (a, b) ∈ edges → b ∈ U) :
    iterR edges n X ⊆ U := by
  induction n generalizing X with
  | zero => exact hX
  | succ n ih =>
    refine ih ?_
    intro w hw
    rcases mem_stepR.1 hw with h1 | ⟨a, ha, he⟩
    · exact hX h1
    · exact hU a (hX ha) w he

theorem iterR_subset_universeR (edges : List (ℕ × ℕ)) (n : ℕ) (S : Finset ℕ) :
    iterR edges n S ⊆ universeR edges S := by
  refine iterR_subset_of_closed edges n Finset.subset_union_left ?_
  intro a _ b hb
  exact Finset.mem_union_right _ (List.mem_toFinset.2 (List.mem_map.2 ⟨(a, b), hb, rfl⟩))

theorem iterR_sound (edges : List (ℕ × ℕ)) (n : ℕ) (X : Finset ℕ) {w : ℕ}
    (h : w ∈ iterR edges n X) : ∃ s ∈ X, Relation.ReflTransGen (edgeOf edges) s w := by
  induction n generalizing X with
  | zero => exact ⟨w, h, Relation.ReflTransGen.refl⟩
  | succ n ih =>
    obtain ⟨s, hs, hrt⟩ := ih (stepR edges X) h
    rcases mem_stepR.1 hs with h1 | ⟨a, ha, he⟩
    · exact ⟨s, h1, hrt⟩
    · exact ⟨a, ha, Relation.ReflTransGen.head he hrt⟩

theorem iterR_eventually_fixed (edges : List (ℕ × ℕ)) (S : Finset ℕ) :
    ∃ k ≤ (universeR edges S).card,
      stepR edges (iterR edges k S) = iterR edges k S := by
  by_contra hcon
  push_neg at hcon
  have hgrow : ∀ k, k ≤ (universeR edges S).card + 1 → k ≤ (iterR edges k S).card := by
    intro k hk
    induction k with
    | zero => exact Nat.zero_le _
    | succ k ih =>
      have hk' : k ≤ (universeR edges S).card := Nat.lt_succ_iff.1 hk
      have hne := hcon k hk'
      have hss : iterR edges k S ⊂ stepR edges (iterR edges k S) :=
        Finset.ssubset_iff_subset_ne.2 ⟨subset_stepR edges _, fun h => hne h.symm⟩
      have hlt : (iterR edges k S).card < (iterR edges (k + 1) S).card := by
        rw [iterR_succ_eq]
        exact Finset.card_lt_card hss
      have := ih (Nat.le_of_succ_le hk)
      omega
  have h1 := hgrow ((universeR edges S).card + 1) (le_refl _)
  have h2 : (iterR edges ((universeR edges S).card + 1) S).card ≤ (universeR edges S).card :=
    Finset.card_le_card (iterR_subset_universeR edges _ S)
  omega

theorem stepR_fixed_propagates (edges : List (ℕ × ℕ)) (S : Finset ℕ) {k : ℕ}
    (hfix : stepR edges (iterR edges k S) = iterR edges k S) :
    ∀ m, iterR edges (k + m) S = iterR edges k S := by
  intro m
  induction m with
  | zero => rfl
  | succ m ih =>
    have : k + (m + 1) = (k + m) + 1 := by omega
    rw [this, iterR_succ_eq, ih, hfix]

theorem stepR_reachSet (edges : List (ℕ × ℕ)) (S : Finset ℕ) :
    stepR edges (reachSet edges S) = reachSet edges S := by
  obtain ⟨k, hk, hfix⟩ := iterR_eventually_fixed edges S
  obtain ⟨m, hm⟩ : ∃ m, (universeR edges S).card = k + m := ⟨_, (Nat.add_sub_cancel' hk).symm⟩
  unfold reachSet
  rw [hm, stepR_fixed_propagates edges S hfix m, hfix]

theorem reachSet_complete (edges : List (ℕ × ℕ)) (S : Finset ℕ) {s w : ℕ}
    (hs : s ∈ S) (h : Relation.ReflTransGen (edgeOf edges) s w) :
    w ∈ reachSet edges S := by
  induction h with
  | refl => exact subset_iterR edges _ S hs
  | tail _ he ih =>
    rename_i b c _
    have : c ∈ stepR edges (reachSet edges S) := mem_stepR.2 (Or.inr ⟨b, ih, he⟩)
    rwa [stepR_reachSet edges S] at this

/-- Membership characterization of `reachSet`: exactly the versions reachable
from the start set by zero or more `Requires` edges. -/
theorem mem_reachSet (edges : List (ℕ × ℕ)) (S : Finset ℕ) (w : ℕ) :
    w ∈ reachSet edges S ↔ ∃ s ∈ S, Relation.ReflTransGen (edgeOf edges) s w := by
  constructor
  · exact iterR_sound edges _ S
  · rintro ⟨s, hs, h⟩
    exact reachSet_complete edges S hs h

theorem mem_targets {edges : List (ℕ × ℕ)} {a b : ℕ} :
    b ∈ targets edges a ↔ (a, b) ∈ edges := by
  simp only [targets, List.mem_toFinset, List.mem_map, List.mem_filter,
    decide_eq_true_eq]
  constructor
  · rintro ⟨⟨x, y⟩, ⟨hm, rfl⟩, rfl⟩
    exact hm
  · intro h
    exact ⟨(a, b), ⟨h, rfl⟩, rfl⟩

/-- Everything the computed `required_map` assigns to a version `v` is
reachable from `v` by at least one `Requires` edge. -/
theorem required_map_of_transGen {edges : List (ℕ × ℕ)} {S : Finset ℕ} {v w : ℕ}
    (h : w ∈ required_map_of edges S v) : Relation.TransGen (edgeOf edges) v w := by
  unfold required_map_of at h
  split at h
  · obtain ⟨b, hb, hrt⟩ := (mem_reachSet edges _ w).1 h
    exact Relation.TransGen.head' (mem_targets.1 hb) hrt
  · exact absurd h (Finset.not_mem_empty w)

/-- Membership characterization of the `required_versions` component of
`get_all_required_versions`. -/
theorem mem_get_all_required_versions (edges : List (ℕ × ℕ)) (S : Finset ℕ) (w : ℕ) :
    w ∈ (get_all_required_versions edges S).1 ↔
      w ∈ S ∨ ∃ s ∈ S, Relation.TransGen (edgeOf edges) s w := by
  unfold get_all_required_versions
  simp only [Finset.mem_union, Finset.mem_biUnion, Finset.mem_insert,
    required_map_keys, Finset.mem_filter]
  constructor
  · rintro (hS | ⟨v, ⟨hvr, _⟩, hw⟩)
    · exact Or.inl hS
    · obtain ⟨s, hs, hrt⟩ := (mem_reachSet edges S v).1 hvr
      rcases hw with rfl | hw
      · rcases Relation.ReflTransGen.cases_head hrt with rfl | ⟨c, hc, hct⟩
        · exact Or.inl hs
        · exact Or.inr ⟨s, hs, Relation.TransGen.head' hc hct⟩
      · exact Or.inr ⟨s, hs,
          Relation.TransGen.trans_right hrt (required_map_of_transGen hw)⟩
  · rintro (hS | ⟨s, hs, htg⟩)
    · exact Or.inl hS
    · obtain ⟨b, hb, hbw⟩ := Relation.TransGen.head'_iff.1 htg
      have hsr : s ∈ reachSet edges S :=
        (mem_reachSet edges S s).2 ⟨s, hs, Relation.ReflTransGen.refl⟩
      have htb : b ∈ targets edges s := mem_targets.2 hb
      have hts : targets edges s ≠ ∅ := Finset.ne_empty_of_mem htb
      refine Or.inr ⟨s, ⟨hsr, hts⟩, Or.inr ?_⟩
      unfold required_map_of
      rw [if_pos ⟨hsr, hts⟩]
      exact (mem_reachSet edges _ w).2 ⟨b, htb, hbw⟩

/-- C3: `get_all_required_versions` returns `required_versions` equal to the
active set `S` together with everything reachable from `S` by one or more
`Requires` edges (the reflexive-transitive closure of `Requires` starting
from `S`), and enlarging `S` never removes an id from the result. -/
theorem C3_required_versions_closure (edges : List (ℕ × ℕ)) (S S' : Finset ℕ)
    (hsub : S ⊆ S') :
    (∀ w, w ∈ (get_all_required_versions edges S).1 ↔
      w ∈ S ∨ ∃ s ∈ S, Relation.TransGen (edgeOf edges) s w)
    ∧ (get_all_required_versions edges S).1 ⊆ (get_all_required_versions edges S').1 := by
  refine ⟨mem_get_all_required_versions edges S, ?_⟩
  intro w hw
  rcases (mem_get_all_required_versions edges S w).1 hw with hS | ⟨s, hs, htg⟩
  · exact (mem_get_all_required_versions edges S' w).2 (Or.inl (hsub hS))
  · exact (mem_get_all_required_versions edges S' w).2 (Or.inr ⟨s, hsub hs, htg⟩)

/-- Closed instance of `C3_required_versions_closure` on the concrete DAG
`1 ⟶ 2 ⟶ 3` with active sets `{1} ⊆ {1, 4}`. -/
theorem C3_required_versions_closure_witness :
    ({1} : Finset ℕ) ⊆ {1, 4} ∧
    ((∀ w, w ∈ (get_all_required_versions [(1, 2), (2, 3)] {1}).1 ↔
      w ∈ ({1} : Finset ℕ) ∨ ∃ s ∈ ({1} : Finset ℕ),
        Relation.TransGen (edgeOf [(1, 2), (2, 3)]) s w)
    ∧ (get_all_required_versions [(1, 2), (2, 3)] {1}).1 ⊆
        (get_all_required_versions [(1, 2), (2, 3)] {1, 4}).1) :=
  ⟨by decide, C3_required_versions_closure [(1, 2), (2, 3)] {1} {1, 4} (by decide)⟩

/-- Antisymmetry of `better_fit` for any map without mutual requirements. -/
theorem better_fit_antisymm_aux (req : ℕ → Finset ℕ)
    (hmut : ∀ a b, a ∈ req b → b ∈ req a → False)
    (A : ℕ) (VA : Finset ℕ) (B : ℕ) (VB : Finset ℕ) :
    ¬(better_fit req A VA B VB = true ∧ better_fit req B VB A VA = true) := by
  rintro ⟨h1, h2⟩
  unfold better_fit at h1 h2
  split_ifs at h1 with a1 a2 a3 a4
  split_ifs at h2 with b1 b2 b3 b4
  have heq : VA.card = VB.card := by omega
  rw [decide_eq_true_eq] at h2
  have hnb2 : ((VB ×ˢ VA).filter
      (fun p => p.1 ≠ p.2 ∧ p.2 ∈ req p.1)).card ≠ 0 := by
    rcases h2 with h | h
    · exact h
    · omega
  obtain ⟨⟨w0, v0⟩, hp⟩ := Finset.card_pos.1 (Nat.pos_of_ne_zero hnb2)
  rw [Finset.mem_filter, Finset.mem_product] at hp
  obtain ⟨⟨hw0, hv0⟩, hne0, hreq0⟩ := hp
  push_neg at a2
  have himp := a2 v0 hv0 w0 hw0 (fun h => hne0 h.symm)
  by_cases hwv : w0 ∈ req v0
  · exact hmut v0 w0 hreq0 hwv
  · exact (himp hwv) hreq0

/-- C2: `better_fit` over the `required_map` derived from an acyclic
`Requires` relation is never true in both directions for the same pair of
candidates. -/
theorem C2_better_fit_antisymm (edges : List (ℕ × ℕ)) (S : Finset ℕ)
    (hacyc : ∀ a, ¬ Relation.TransGen (edgeOf edges) a a)
    (A : ℕ) (VA : Finset ℕ) (B : ℕ) (VB : Finset ℕ) :
    ¬(better_fit (get_all_required_versions edges S).2 A VA B VB = true ∧
      better_fit (get_all_required_versions edges S).2 B VB A VA = true) := by
  refine better_fit_antisymm_aux _ ?_ A VA B VB
  intro a b h1 h2
  exact hacyc a ((required_map_of_transGen h2).trans (required_map_of_transGen h1))

theorem transGen_nil_false (a b : ℕ) :
    ¬ Relation.TransGen (edgeOf ([] : List (ℕ × ℕ))) a b := by
  intro h
  induction h with
  | single h => exact absurd h (List.not_mem_nil _)
  | tail _ he _ => exact absurd he (List.not_mem_nil _)

/-- Closed instance of `C2_better_fit_antisymm` on the empty (hence acyclic)
requirement relation. -/
theorem C2_better_fit_antisymm_witness :
    ¬(better_fit (get_all_required_versions [] {1}).2 3 {1} 4 {1} = true ∧
      better_fit (get_all_required_versions [] {1}).2 4 {1} 3 {1} = true) :=
  C2_better_fit_antisymm [] {1} (fun a => transGen_nil_false a a) 3 {1} 4 {1}

/-- Two candidates with set-identical version sets never satisfy
`better_fit` (the `num_matches == len(other) == len(versions)` branch). -/
theorem better_fit_self_false (req : ℕ → Finset ℕ) (a b : ℕ) (V : Finset ℕ) :
    better_fit req a V b V = false := by
  unfold better_fit
  split_ifs with c1 c2 c3 c4
  · rfl
  · rfl
  · rfl
  · rfl
  · exact absurd ⟨by rw [Finset.inter_self], rfl⟩ c4

/-- Two candidates with disjoint version sets, no requirement relation in
either direction, and a non-empty second set never satisfy `better_fit`
(the `num_better + num_matches < len(other_versions)` branch). -/
theorem better_fit_disjoint_false (req : ℕ → Finset ℕ) (a b : ℕ) {VA VB : Finset ℕ}
    (hdisj : Disjoint VA VB)
    (hunrel : ∀ v ∈ VA, ∀ w ∈ VB, w ∉ req v ∧ v ∉ req w)
    (hne : VB ≠ ∅) :
    better_fit req a VA b VB = false := by
  unfold better_fit
  split_ifs with c1 c2 c3 c4
  · rfl
  · rfl
  · rfl
  · rfl
  · exfalso
    apply c3
    clear c4
    have hm : (VA ∩ VB).card = 0 := by
      rw [Finset.card_eq_zero, ← Finset.disjoint_iff_inter_eq_empty]
      exact hdisj
    have hb : ((VA ×ˢ VB).filter (fun p => p.1 ≠ p.2 ∧ p.2 ∈ req p.1)).card = 0 := by
      rw [Finset.card_eq_zero, Finset.filter_eq_empty_iff]
      rintro ⟨v, w⟩ hvw
      rw [Finset.mem_product] at hvw
      rintro ⟨_, hreq⟩
      exact (hunrel v hvw.1 w hvw.2).1 hreq
    rw [hm, hb]
    simpa using Finset.card_pos.2 (Finset.nonempty_iff_ne_empty.2 hne)

theorem scan_cands_none (required_map : ℕ → Finset ℕ) (all : List Candidate)
    (l : List Candidate) (hfail : ∀ c ∈ l, survives required_map all c = false) :
    scan_cands required_map all l none = .ok none := by
  induction l with
  | nil => rfl
  | cons c rest ih =>
    unfold scan_cands
    rw [hfail c (List.mem_cons_self _ _)]
    exact ih (fun c2 hc2 => hfail c2 (List.mem_cons_of_mem c hc2))

theorem exists_other_slot {cands : List Candidate} (hlen : 2 ≤ cands.length)
    (hids : cands.Pairwise (fun c c2 => c.slot_id ≠ c2.slot_id)) :
    ∀ c ∈ cands, ∃ c2 ∈ cands, c2.slot_id ≠ c.slot_id := by
  match cands, hlen with
  | c1 :: c2 :: rest, _ =>
    have h12 : c1.slot_id ≠ c2.slot_id :=
      (List.pairwise_cons.1 hids).1 c2 (List.mem_cons_self _ _)
    intro c _
    by_cases h : c1.slot_id = c.slot_id
    · exact ⟨c2, List.mem_cons_of_mem _ (List.mem_cons_self _ _),
        fun heq => h12 (h.trans heq.symm)⟩
    · exact ⟨c1, List.mem_cons_self _ _, h⟩

/-- C1: a group of two or more candidates for one `(frame_id, name,
value_order)` key, each with a version set inside `required_versions`, whose
version sets are set-identical or pairwise disjoint with no requirement
relation between them, makes `select_best_matches` raise the slot version
conflict naming the candidates, never silently selecting one of them. -/
theorem C1_select_conflict (required_map : ℕ → Finset ℕ) (required_versions : Finset ℕ)
    (key : ℕ × String × Option ℚ) (cands : List Candidate)
    (hlen : 2 ≤ cands.length)
    (hids : cands.Pairwise (fun c c2 => c.slot_id ≠ c2.slot_id))
    (hsub : ∀ c ∈ cands, c.versions ⊆ required_versions)
    (hne : ∀ c ∈ cands, c.versions ≠ ∅)
    (hcase : (∀ c ∈ cands, ∀ c2 ∈ cands, c.versions = c2.versions)
      ∨ cands.Pairwise (fun c c2 => Disjoint c.versions c2.versions
          ∧ ∀ v ∈ c.versions, ∀ w ∈ c2.versions,
              w ∉ required_map v ∧ v ∉ required_map w)) :
    select_best_matches required_map required_versions [(key, cands)]
      = .error (.slotVersionConflict cands) := by
  have hbf : ∀ c ∈ cands, ∀ c2 ∈ cands, c2.slot_id ≠ c.slot_id →
      better_fit required_map c.slot_id c.versions c2.slot_id c2.versions = false := by
    intro c hc c2 hc2 hneid
    rcases hcase with hsame | hdisj
    · rw [hsame c hc c2 hc2]
      exact better_fit_self_false required_map _ _ _
    · have hpair : Disjoint c.versions c2.versions
          ∧ ∀ v ∈ c.versions, ∀ w ∈ c2.versions,
              w ∉ required_map v ∧ v ∉ required_map w := by
        have hsymm : Symmetric (fun c c2 : Candidate =>
            Disjoint c.versions c2.versions
            ∧ ∀ v ∈ c.versions, ∀ w ∈ c2.versions,
                w ∉ required_map v ∧ v ∉ required_map w) := by
          rintro x y ⟨hd, hrel⟩
          exact ⟨hd.symm, fun v hv w hw =>
            ⟨(hrel w hw v hv).2, (hrel w hw v hv).1⟩⟩
        exact List.Pairwise.forall hsymm hdisj hc hc2
          (fun heq => hneid (by rw [heq]))
      exact better_fit_disjoint_false required_map _ _ hpair.1 hpair.2
        (hne c2 hc2)
  have hfilter : cands.filter
      (fun c => decide (c.versions ⊆ required_versions)) = cands :=
    List.filter_eq_self.2 (fun c hc => decide_eq_true (hsub c hc))
  have hsur : ∀ c ∈ cands, survives required_map cands c = false := by
    intro c hc
    obtain ⟨c2, hc2, hneid⟩ := exists_other_slot hlen hids c hc
    unfold survives
    rw [List.all_eq_false]
    refine ⟨c2, hc2, ?_⟩
    simp only [Bool.or_eq_true, beq_iff_eq, not_or]
    exact ⟨hneid, by simp [hbf c hc c2 hc2 hneid]⟩
  have hgroup : select_group required_map required_versions cands
      = .error (.slotVersionConflict cands) := by
    match cands, hsur, hfilter with
    | c1 :: c2 :: rest, hsur, hfilter =>
      simp only [select_group, hfilter,
        scan_cands_none required_map (c1 :: c2 :: rest) (c1 :: c2 :: rest) hsur]
  simp only [select_best_matches, List.foldlM_cons, hgroup, List.foldlM_nil]
  rfl

/-- Closed instance of `C1_select_conflict`: two desired candidates with
disjoint, unrelated singleton version sets both inside
`required_versions = {1, 2}`. -/
theorem C1_select_conflict_witness :
    select_best_matches (fun _ => (∅ : Finset ℕ)) {1, 2}
      [((1, "COLOR", none),
        [⟨10, some "red", true, {1}⟩, ⟨11, some "blue", true, {2}⟩])]
      = .error (.slotVersionConflict
          [⟨10, some "red", true, {1}⟩, ⟨11, some "blue", true, {2}⟩]) :=
  C1_select_conflict (fun _ => ∅) {1, 2} (1, "COLOR", none)
    [⟨10, some "red", true, {1}⟩, ⟨11, some "blue", true, {2}⟩]
    (by decide) (by decide) (by decide) (by decide) (Or.inr (by decide))

/-! ### Frame/slot mutation API (src/frames.py lines 464-558)

The `Slot` and `Slot_versions` tables are embedded as association lists; the
SQL `INSERT`/`UPDATE` statements become list operations.  Python's dynamic
typing lets `update_slot` pass its `value_order` argument into `create_slot`'s
`value` parameter, so the `value` and `value_order` columns share one dynamic
value type. -/

/-- A Python-level slot value: a string, a number (list positions), or None. -/
inductive PyVal where
  | str (s : String)
  | num (q : ℚ)
  | null
deriving DecidableEq

/-- One row of the `Slot` table (the columns the core logic reads). -/
structure SlotRow where
  frame_id : ℕ
  name : String
  value : PyVal
  value_order : PyVal
  description : PyVal
deriving DecidableEq

/-- The database state seen by the mutation entry points: the `Slot` table
keyed by `slot_id`, the `Slot_versions` link table, and the autoincrement
counter that yields `lastrowid`. -/
structure DB where
  slots : List (ℕ × SlotRow)
  slot_versions : List (ℕ × ℕ)
  next_slot_id : ℕ
deriving DecidableEq

/-- The parts of the `version` object the mutation entry points read:
`self.frozen` and `self.version_ids` (a frozenset, carried here in its
iteration order as a duplicate-free list). -/
structure VersionCtx where
  frozen : Bool
  version_ids : List ℕ
  user_id : ℕ
deriving DecidableEq

/-- Errors raised by the mutation entry points. -/
inductive MutErr where
  | frozenVersions
  | missingSlot (slot_id : ℕ)
deriving DecidableEq

/-- Embedding of `version.create_slot` (src/frames.py lines 522-558): frozen
check, insert of the new `Slot` row, one `Slot_versions` row per active
version id, and the returned raw-slot dict (which reports the `value`
argument as passed, like the source). -/
def create_slot (ctx : VersionCtx) (db : DB) (frame_id : ℕ) (name : String)
    (value : PyVal) (value_order : PyVal) (description : PyVal) :
    Except MutErr (DB × (ℕ × SlotRow)) :=
  if ctx.frozen then .error .frozenVersions
  else
    let row : SlotRow := ⟨frame_id, name, value, value_order, description⟩
    let slot_id := db.next_slot_id
    .ok ({ slots := db.slots ++ [(slot_id, row)],
           slot_versions := db.slot_versions
             ++ ctx.version_ids.map (fun v => (slot_id, v)),
           next_slot_id := slot_id + 1 },
         (slot_id, row))

/-- The version-id set currently attached to `slot_id`
(`SELECT version_id FROM Slot_versions WHERE slot_id = :slot_id`, collected
into a frozenset at src/frames.py line 494). -/
def slot_versions_of (db : DB) (slot_id : ℕ) : Finset ℕ :=
  ((db.slot_versions.filter (fun p => decide (p.1 = slot_id))).map Prod.snd).toFinset

/-- Embedding of `version.update_slot` (src/frames.py lines 485-520): frozen
check; when the slot's attached version set equals the active set, update the
row in place and return the same slot id (the literal SQL there has a missing
comma after `value_order = :value_order` and a trailing comma before `WHERE`;
the intended column updates are modeled); otherwise look up the row's
`(frame_id, name)` and call `create_slot(frame_id, name, value_order, value,
description)` — reproducing the source's positional arguments, under which
`value_order` lands in `create_slot`'s `value` parameter and `value` in its
`value_order` parameter — returning the new slot id. -/
def update_slot (ctx : VersionCtx) (db : DB) (slot_id : ℕ) (value : PyVal)
    (value_order : PyVal) (description : PyVal) : Except MutErr (DB × ℕ) :=
  if ctx.frozen then .error .frozenVersions
  else if slot_versions_of db slot_id = ctx.version_ids.toFinset then
    .ok ({ db with slots := db.slots.map (fun p =>
        if p.1 = slot_id then
          (p.1, ⟨p.2.frame_id, p.2.name, value, value_order, description⟩)
        else p) },
      slot_id)
  else
    match db.slots.find? (fun p => decide (p.1 = slot_id)) with
    | Option.none => .error (.missingSlot slot_id)
    | some (_, row) =>
      match create_slot ctx db row.frame_id row.name value_order value description with
      | .error e => .error e
      | .ok (db2, (new_id, _)) => .ok (db2, new_id)

/-- Embedding of `version.delete_slot` (src/frames.py lines 464-472): set the
row's value to the `<DELETED>` sentinel.  The source performs no frozen
check, which the embedding records by ignoring the context argument. -/
def delete_slot (_ctx : VersionCtx) (db : DB) (slot_id : ℕ) : DB :=
  { db with slots := db.slots.map (fun p =>
      if p.1 = slot_id then (p.1, { p.2 with value := .str "<DELETED>" }) else p) }

/-- Embedding of `version.create_list` (src/frames.py lines 474-483): one
`create_slot` per value, numbering `value_order` from 1000 by 1; the frozen
check happens only inside `create_slot`, so an empty list performs none. -/
def create_list (ctx : VersionCtx) (db : DB) (frame_id : ℕ) (name : String)
    (values : List PyVal) : Except MutErr (DB × List (ℕ × SlotRow)) :=
  (List.enumFrom 1000 values).foldlM (fun acc p => do
      let (db2, raw) ← create_slot ctx acc.1 frame_id name p.2 (.num p.1) .null
      pure (db2, acc.2 ++ [raw])) (db, [])

/-! ### List splicing (src/frames.py lines 1059-1107)

A raw slot participating in a `slot_list` always carries a numeric
`value_order`, embedded as `ℚ` (the claim asks for the positions over exact
rational arithmetic). -/

/-- A raw slot row of a `slot_list`: the fields `splice` reads and copies. -/
structure ListRow where
  slot_id : ℕ
  name : String
  value : String
  value_order : ℚ
deriving DecidableEq, Inhabited

/-- The claim's position formula: the k-th of `n` inserted copies
(`k = 1..n`) gets `start + k * (endp - start) / (n + 1)`. -/
def splice_positions (start endp : ℚ) (n : ℕ) : List ℚ :=
  (List.range n).map
    (fun k : ℕ => start + ((k : ℚ) + 1) * ((endp - start) / ((n : ℚ) + 1)))

/-- Embedding of `slot_list.splice` (src/frames.py lines 1059-1107).
`to_splice` is the raw-slot list of `slot_list_to_splice` looked up on the
splice frame (`[]` when that lookup returned `None`); `i` is a non-negative
index (Python's `i == -1` case aliases the last element, covered by the
`i == len - 1` branch).  Each copied row keeps its fields and gets
`value_order = start + n * inc` for `n = 1, 2, ...` (lines 1087-1093); the
source's extra stuffing of non-conflicting splice-frame slots onto
frame-valued elements (lines 1095-1103) mutates only the embedded frame
objects of copied values, not the name/value/value_order columns modeled
here.  The result replaces `raw_slots[i:i+1]`. -/
def splice (raw_slots : List ListRow) (i : ℕ) (to_splice : List ListRow) :
    List ListRow :=
  let start := (raw_slots.getD i default).value_order
  let inc : ℚ :=
    if i = raw_slots.length - 1 then 1
    else ((raw_slots.getD (i + 1) default).value_order - start)
      / ((to_splice.length : ℚ) + 1)
  let new_raw_slots := (List.enumFrom 1 to_splice).map
      (fun p => ⟨p.2.slot_id, p.2.name, p.2.value, start + (p.1 : ℚ) * inc⟩)
  raw_slots.take i ++ new_raw_slots ++ raw_slots.drop (i + 1)

theorem enumFrom_map_orders (start inc : ℚ) (l : List ListRow) (j : ℕ) :
    (List.enumFrom j l).map
        (fun p : ℕ × ListRow => start + (p.1 : ℚ) * inc)
      = (List.range l.length).map (fun k : ℕ => start + ((k + j : ℕ) : ℚ) * inc) := by
  induction l generalizing j with
  | nil => rfl
  | cons a l ih =>
    simp only [List.enumFrom, List.map_cons, List.length_cons, List.range_succ_eq_map,
      List.map_cons, List.map_map]
    refine congrArg₂ _ (by norm_num) ?_
    rw [ih (j + 1)]
    apply List.map_congr_left
    intro k _
    simp only [Function.comp_apply]
    rw [show k + 1 + j = k + (j + 1) from by omega]

theorem enumFrom_map_snd_val {α β : Type} (h : α → β) (l : List α) (j : ℕ) :
    (List.enumFrom j l).map (fun p => h p.2) = l.map h := by
  induction l generalizing j with
  | nil => rfl
  | cons a l ih => simp only [List.enumFrom, List.map_cons, ih (j + 1)]

theorem mem_splice_positions {start endp : ℚ} {n : ℕ} {p : ℚ} :
    p ∈ splice_positions start endp n
      ↔ ∃ k : ℕ, k < n
          ∧ p = start + ((k : ℚ) + 1) * ((endp - start) / ((n : ℚ) + 1)) := by
  unfold splice_positions
  constructor
  · intro hp
    rw [List.mem_map] at hp
    obtain ⟨k, hk, hkeq⟩ := hp
    exact ⟨k, List.mem_range.1 hk, hkeq.symm⟩
  · rintro ⟨k, hk, rfl⟩
    exact List.mem_map.2 ⟨k, List.mem_range.2 hk, rfl⟩

theorem pairwise_splice_positions {start endp : ℚ} {n : ℕ} (h : start < endp) :
    List.Pairwise (· < ·) (splice_positions start endp n) := by
  unfold splice_positions
  have hincpos : (0 : ℚ) < (endp - start) / ((n : ℚ) + 1) :=
    div_pos (by linarith) (by positivity)
  refine List.Pairwise.map
    (fun k : ℕ => start + ((k : ℚ) + 1) * ((endp - start) / ((n : ℚ) + 1)))
    (fun a b hab => ?_) (List.pairwise_lt_range n)
  have h1 : ((a : ℚ) + 1) < ((b : ℚ) + 1) := by exact_mod_cast Nat.succ_lt_succ hab
  have h2 := mul_lt_mul_of_pos_right h1 hincpos
  linarith

theorem splice_positions_between {start endp : ℚ} {n : ℕ} (h : start < endp)
    (hn : 0 < n) : ∀ p ∈ splice_positions start endp n, start < p ∧ p < endp := by
  intro p hp
  obtain ⟨k, hk, rfl⟩ := mem_splice_positions.1 hp
  have hincpos : (0 : ℚ) < (endp - start) / ((n : ℚ) + 1) :=
    div_pos (by linarith) (by positivity)
  constructor
  · have : (0 : ℚ) < ((k : ℚ) + 1) * ((endp - start) / ((n : ℚ) + 1)) :=
      mul_pos (by positivity) hincpos
    linarith
  · have hk1 : ((k : ℚ) + 1) < (n : ℚ) + 1 := by
      have : (k : ℚ) < (n : ℚ) := by exact_mod_cast hk
      linarith
    have hstep := mul_lt_mul_of_pos_right hk1 hincpos
    have hfull : ((n : ℚ) + 1) * ((endp - start) / ((n : ℚ) + 1)) = endp - start := by
      field_simp
    linarith

/-- C8: for an interior splice between the replaced element at position
`start` and its successor at position `endp > start`, with `n ≥ 1` copies
inserted, `splice` produces exactly the prefix, the copies, and the suffix;
the copies keep the source rows' ids, names and values in their original
relative order; and their new positions are the claim's
`start + k * (endp - start) / (n + 1)`, which are pairwise distinct (indeed
strictly increasing) and each strictly between `start` and `endp`. -/
theorem C8_splice_interpolation (raw_slots to_splice : List ListRow) (i : ℕ)
    (hi : i + 1 < raw_slots.length) (hn : to_splice ≠ [])
    (hlt : (raw_slots.getD i default).value_order
      < (raw_slots.getD (i + 1) default).value_order) :
    (splice raw_slots i to_splice).map (fun r => r.value_order)
      = (raw_slots.map (fun r => r.value_order)).take i
        ++ splice_positions (raw_slots.getD i default).value_order
            (raw_slots.getD (i + 1) default).value_order to_splice.length
        ++ (raw_slots.map (fun r => r.value_order)).drop (i + 1)
    ∧ (splice raw_slots i to_splice).map (fun r => (r.slot_id, r.name, r.value))
      = (raw_slots.map (fun r => (r.slot_id, r.name, r.value))).take i
        ++ to_splice.map (fun r => (r.slot_id, r.name, r.value))
        ++ (raw_slots.map (fun r => (r.slot_id, r.name, r.value))).drop (i + 1)
    ∧ List.Pairwise (· < ·)
        (splice_positions (raw_slots.getD i default).value_order
          (raw_slots.getD (i + 1) default).value_order to_splice.length)
    ∧ ∀ p ∈ splice_positions (raw_slots.getD i default).value_order
          (raw_slots.getD (i + 1) default).value_order to_splice.length,
        (raw_slots.getD i default).value_order < p
        ∧ p < (raw_slots.getD (i + 1) default).value_order := by
  have hne_last : i ≠ raw_slots.length - 1 := by omega
  have hlen : 0 < to_splice.length := List.length_pos_of_ne_nil hn
  have hinc : splice raw_slots i to_splice
      = raw_slots.take i
        ++ (List.enumFrom 1 to_splice).map
          (fun p => ⟨p.2.slot_id, p.2.name, p.2.value,
            (raw_slots.getD i default).value_order
              + (p.1 : ℚ) * (((raw_slots.getD (i + 1) default).value_order
                  - (raw_slots.getD i default).value_order)
                / ((to_splice.length : ℚ) + 1))⟩)
        ++ raw_slots.drop (i + 1) := by
    simp only [splice]
    rw [if_neg hne_last]
  refine ⟨?_, ?_, pairwise_splice_positions hlt,
    splice_positions_between hlt hlen⟩
  · rw [hinc, List.map_append, List.map_append, List.map_map]
    congr 1
    congr 1
    · exact List.map_take _ _ _
    · show (List.enumFrom 1 to_splice).map
          (fun p : ℕ × ListRow => (raw_slots.getD i default).value_order
            + (p.1 : ℚ) * (((raw_slots.getD (i + 1) default).value_order
                - (raw_slots.getD i default).value_order)
              / ((to_splice.length : ℚ) + 1))) = _
      rw [enumFrom_map_orders]
      unfold splice_positions
      apply List.map_congr_left
      intro k _
      push_cast
      ring
    · exact List.map_drop _ _ _
  · rw [hinc, List.map_append, List.map_append, List.map_map]
    congr 1
    congr 1
    · exact List.map_take _ _ _
    · exact enumFrom_map_snd_val (fun r => (r.slot_id, r.name, r.value)) to_splice 1
    · exact List.map_drop _ _ _

/-- Closed instance of `C8_splice_interpolation`: a 3-element list spliced
between neighbors at positions 5 and 7. -/
theorem C8_splice_interpolation_witness :
    (0 + 1 < ([⟨1, "xs", "a", 5⟩, ⟨2, "xs", "b", 7⟩] : List ListRow).length)
    ∧ (([⟨10, "xs", "p", 100⟩, ⟨11, "xs", "q", 101⟩, ⟨12, "xs", "r", 102⟩] :
        List ListRow) ≠ [])
    ∧ (([⟨1, "xs", "a", 5⟩, ⟨2, "xs", "b", 7⟩] : List ListRow).getD 0
        default).value_order
      < (([⟨1, "xs", "a", 5⟩, ⟨2, "xs", "b", 7⟩] : List ListRow).getD 1
        default).value_order
    ∧ List.Pairwise (· < ·)
        (splice_positions
          (([⟨1, "xs", "a", 5⟩, ⟨2, "xs", "b", 7⟩] : List ListRow).getD 0
            default).value_order
          (([⟨1, "xs", "a", 5⟩, ⟨2, "xs", "b", 7⟩] : List ListRow).getD 1
            default).value_order 3) :=
  ⟨by decide, by decide, by decide,
   (C8_splice_interpolation [⟨1, "xs", "a", 5⟩, ⟨2, "xs", "b", 7⟩]
      [⟨10, "xs", "p", 100⟩, ⟨11, "xs", "q", 101⟩, ⟨12, "xs", "r", 102⟩] 0
      (by decide) (by decide) (by decide)).2.2.1⟩

/-! ### The frames.py frame object (src/frames.py lines 691-870)

A frame's `raw_slots` dict maps uppercased slot names to either a raw-slot
dict or a `slot_list`.  A raw slot whose value starts with `$` is cooked into
another frame via `version_obj.get_frame`; since the claims concern acyclic
frame databases (the source loops forever otherwise), the resolved frame is
embedded inline in the entry (`EntryF.fref` keeps the referenced label and
the resolved frame).  A scalar entry keeps its raw string value, so the
`<DELETED>` sentinel checks read exactly the stored value. -/

mutual
inductive EntryF : Type where
  | scalar (slot_id : ℕ) (value : String)
  | fref (slot_id : ℕ) (label : String) (f : FrameF)
  | slist (rows : List ListRow)

inductive FrameF : Type where
  | mk (frame_id : ℕ) (own : List (String × EntryF))
end

def FrameF.fid : FrameF → ℕ
  | .mk i _ => i

def FrameF.own : FrameF → List (String × EntryF)
  | .mk _ o => o

/-- Character-wise upper casing, the effect of Python's `str.upper()` on the
ASCII slot names this system uses (Lean's `String.toUpper` is extensionally
the same map but is not kernel-reducible, so the map is spelled out). -/
def strUpper (s : String) : String := ⟨s.data.map Char.toUpper⟩

/-- Dict lookup in `self.raw_slots` (keys are stored uppercased by
`frame.__init__`). -/
def lookupRaw (f : FrameF) (key : String) : Option EntryF :=
  (f.own.find? (fun e => e.1 == key)).map (fun e => e.2)

/-- The test `not isinstance(ans, slot_list) and ans['value'].upper() ==
'<DELETED>'`: a `slot_list` is never deleted, and a frame-reference entry
stores a raw value starting with `$`, which can never uppercase to the
sentinel. -/
def isDeletedEntry : EntryF → Bool
  | .scalar _ v => strUpper v == "<DELETED>"
  | _ => false

/-- The lookup-and-return part of `frame.get_raw_slot` (src/frames.py lines
812-829): `some` when the source returns the entry, `none` when it falls
through to the `raise`.  The source returns when `not deleted_is_error or
isinstance(ans, slot_list) or ans['value'].upper() != '<DELETED>'`. -/
def get_raw_slot_found (f : FrameF) (slot_name : String)
    (deleted_is_error : Bool) : Option EntryF :=
  match lookupRaw f (strUpper slot_name) with
  | some ans => if !deleted_is_error || !isDeletedEntry ans then some ans else none
  | none => none

/-- A cooked slot value (`frame.cook_raw_slot`, src/frames.py lines 831-852):
a `slot_list` stays a list, a backquoted value is stripped, a `$` reference
yields the referenced frame.  Template formatting of values containing `{`
is the out-of-scope text-substitution collaborator (spec section 1) and is
modeled as returning the string unchanged; no claim depends on it. -/
inductive Val where
  | str (s : String)
  | frm (f : FrameF)
  | lst (rows : List ListRow)

def cook_raw_slot : EntryF → Val
  | .slist rows => .lst rows
  | .fref _ _ g => .frm g
  | .scalar _ v => if v.take 1 = "\x60" then .str (v.drop 1) else .str v

/-- The value of the `frame_label` property: either the cooked `frame_name`
slot or the numeric `frame_id`. -/
inductive LabelV where
  | val (v : Val)
  | id (n : ℕ)

/-- Embedding of the `frame.frame_label` property (src/frames.py lines
726-731): return the cooked `frame_name` slot, or the frame's own integer
`frame_id` when `get_raw_slot` raises.  The lookup-miss detection
(`get_raw_slot_found`) is factored out of `get_raw_slot` so that the error
message construction below can call `frame_label` without mutual recursion;
`frame_label_eq_catch` restores the source's try/except structure. -/
def frame_label (f : FrameF) : LabelV :=
  match get_raw_slot_found f "frame_name" true with
  | some e => .val (cook_raw_slot e)
  | none => .id f.fid

/-- Rendering of a label for interpolation into an `AttributeError` message.
String labels interpolate as themselves and the id case as the number;
frame- and list-valued labels would recursively render their own reprs,
which no claim depends on, so they are abbreviated. -/
def labelString : LabelV → String
  | .val (.str s) => s
  | .val (.frm g) => "<frame(" ++ toString g.fid ++ ")>"
  | .val (.lst _) => "<slot_list>"
  | .id n => toString n

/-- Embedding of `frame.get_raw_slot` (src/frames.py lines 812-829) with its
error messages: a missing (or deleted, when `deleted_is_error`) slot raises
`AttributeError` whose text uses `self.frame_label` — except for
`frame_name` itself, where the text uses the numeric `self.frame_id`,
which is what keeps `frame_label` total. -/
def get_raw_slot (f : FrameF) (slot_name : String) (deleted_is_error : Bool) :
    Except String EntryF :=
  match get_raw_slot_found f slot_name deleted_is_error with
  | some ans => .ok ans
  | none =>
    if strUpper slot_name ≠ "FRAME_NAME" then
      .error (labelString (frame_label f) ++ "." ++ slot_name)
    else
      .error (toString f.fid ++ "." ++ slot_name)

/-- The model's `frame_label` agrees with the source's structure: it is the
try/except around a full `get_raw_slot` call for `frame_name`. -/
theorem frame_label_eq_catch (f : FrameF) :
    frame_label f = (match get_raw_slot f "frame_name" true with
      | .ok e => .val (cook_raw_slot e)
      | .error _ => .id f.fid) := by
  unfold frame_label get_raw_slot
  cases h : get_raw_slot_found f "frame_name" true
  · simp only [h]
    rw [if_neg (by decide : ¬(strUpper "frame_name" ≠ "FRAME_NAME"))]
  · simp only [h]

theorem sizeOf_cook_frm {f : FrameF} {k : String} {d : Bool} {e : EntryF}
    {g : FrameF} (hfound : get_raw_slot_found f k d = some e)
    (hcook : cook_raw_slot e = .frm g) : sizeOf g < sizeOf f := by
  have hlook : lookupRaw f (strUpper k) = some e := by
    unfold get_raw_slot_found at hfound
    split at hfound
    · rename_i a hl
      split at hfound
      · rw [hl]
        exact hfound
      · exact absurd hfound (by simp)
    · exact absurd hfound (by simp)
  have hfref : ∃ sid lab, e = .fref sid lab g := by
    cases e with
    | scalar sid v =>
      exfalso
      simp only [cook_raw_slot] at hcook
      split at hcook <;> simp at hcook
    | fref sid lab h =>
      have hg : h = g := by simpa [cook_raw_slot] using hcook
      exact ⟨sid, lab, congrArg (EntryF.fref sid lab) hg⟩
    | slist rows => exact absurd hcook (by simp [cook_raw_slot])
  obtain ⟨sid, lab, rfl⟩ := hfref
  rcases f with ⟨i, own⟩
  simp only [lookupRaw, Option.map_eq_some'] at hlook
  obtain ⟨⟨k2, e2⟩, hfind, he2⟩ := hlook
  have hmem := List.mem_of_find?_eq_some hfind
  have h1 : sizeOf ((k2, e2) : String × EntryF) < sizeOf own :=
    List.sizeOf_lt_of_mem hmem
  have h2 : sizeOf e2 < sizeOf ((k2, e2) : String × EntryF) := by
    simp only [Prod.mk.sizeOf_spec]; omega
  have h3 : sizeOf g < sizeOf e2 := by
    rw [show e2 = EntryF.fref sid lab g from he2]
    simp only [EntryF.fref.sizeOf_spec]
    omega
  simp only [FrameF.mk.sizeOf_spec]
  change sizeOf g < 1 + sizeOf i + sizeOf own
  omega

theorem get_raw_slot_ok_found {f : FrameF} {k : String} {d : Bool} {e : EntryF}
    (h : get_raw_slot f k d = .ok e) : get_raw_slot_found f k d = some e := by
  unfold get_raw_slot at h
  split at h
  · rename_i hf
    rw [hf]
    injection h with h2
    rw [h2]
  · split at h <;> exact absurd h (by simp)

mutual

/-- Embedding of `frame.get_raw_slot_inherited` (src/frames.py lines
782-810).  An own (non-deleted) slot is returned; an own deleted slot raises
immediately, never consulting the parents; on a plain miss, unless the name
is `frame_name` (or `ako` outside an isa walk), the `ako` parent is tried
first and then — still at top level only — the `isa` parent, re-raising the
original error when both fail.  `cook_raw_slot` of a non-frame `ako`/`isa`
value makes the recursive attribute access raise `AttributeError`, which the
surrounding `try` absorbs exactly like an inheritance miss; a deleted
`ako`/`isa` slot makes the inner `get_raw_slot` raise outside any `try`,
propagating. -/
def get_raw_slot_inherited (f : FrameF) (slot_name : String) (try_isa : Bool) :
    Except String EntryF :=
  match get_raw_slot_found f slot_name false with
  | some raw_slot =>
    if isDeletedEntry raw_slot then
      .error (labelString (frame_label f) ++ "." ++ slot_name ++ " deleted")
    else .ok raw_slot
  | none =>
    if strUpper slot_name ≠ "FRAME_NAME"
        ∧ (strUpper slot_name ≠ "AKO" ∨ try_isa = true) then
      if (lookupRaw f "AKO").isSome then
        match hga : get_raw_slot f "ako" true with
        | .error e => .error e
        | .ok akoEntry =>
          match hca : cook_raw_slot akoEntry with
          | .frm ako =>
            match get_raw_slot_inherited ako slot_name try_isa with
            | .ok e => .ok e
            | .error _ => grsi_isa f slot_name try_isa
          | _ => grsi_isa f slot_name try_isa
      else grsi_isa f slot_name try_isa
    else get_raw_slot f slot_name false
termination_by (sizeOf f, 1)
decreasing_by
  · exact Prod.Lex.left _ _ (sizeOf_cook_frm (get_raw_slot_ok_found hga) hca)
  · exact Prod.Lex.right _ (by omega)
  · exact Prod.Lex.right _ (by omega)
  · exact Prod.Lex.right _ (by omega)

/-- The `isa` half of the miss handling in `get_raw_slot_inherited`
(src/frames.py lines 798-806), ending in the re-`raise` of the original
error. -/
def grsi_isa (f : FrameF) (slot_name : String) (try_isa : Bool) :
    Except String EntryF :=
  if try_isa = true ∧ (lookupRaw f "ISA").isSome then
    match hgi : get_raw_slot f "isa" true with
    | .error e => .error e
    | .ok isaEntry =>
      match hci : cook_raw_slot isaEntry with
      | .frm isaf =>
        match get_raw_slot_inherited isaf slot_name false with
        | .ok e => .ok e
        | .error _ => get_raw_slot f slot_name false
      | _ => get_raw_slot f slot_name false
  else get_raw_slot f slot_name false
termination_by (sizeOf f, 0)
decreasing_by
  · exact Prod.Lex.left _ _ (sizeOf_cook_frm (get_raw_slot_ok_found hgi) hci)

end

/-- One step of the `for slot_name, slot in self.raw_slots.items()` loop of
`get_slot_names` (src/frames.py lines 761-770): a deleted slot discards the
name; `FRAME_NAME` is skipped inside any inherited walk and `AKO` inside an
isa walk; everything else is added. -/
def snStep (seen_isa seen_ako : Bool) (acc : Finset String)
    (e : String × EntryF) : Finset String :=
  if isDeletedEntry e.2 then acc.erase e.1
  else if (e.1 = "FRAME_NAME" ∧ (seen_isa = true ∨ seen_ako = true))
      ∨ (e.1 = "AKO" ∧ seen_isa = true) then acc
  else insert e.1 acc

/-- Embedding of `frame.get_slot_names` (src/frames.py lines 746-772): the
`ako` parent's names (computed with `seen_ako` set), unioned with the `isa`
parent's names (tried once, never inside an isa walk), then the own-slots
loop.  A deleted `ako`/`isa` slot raises from the inner `get_raw_slot`, and
a non-frame cooked value raises `AttributeError` from the recursive
attribute access; both propagate (there is no `try` here). -/
def get_slot_names (f : FrameF) (seen_isa seen_ako : Bool) :
    Except String (Finset String) :=
  match (if (lookupRaw f "AKO").isSome then
      (match hga : get_raw_slot f "ako" true with
      | .error e => .error e
      | .ok akoEntry =>
        match hca : cook_raw_slot akoEntry with
        | .frm ako => get_slot_names ako seen_isa true
        | .str _ => .error "slot names of a non-frame ako value"
        | .lst _ => .error "slot names of a non-frame ako value"
      : Except String (Finset String))
    else .ok (∅ : Finset String)) with
  | .error e => .error e
  | .ok a =>
    match (if seen_isa = false ∧ (lookupRaw f "ISA").isSome then
        (match hgi : get_raw_slot f "isa" true with
        | .error e => .error e
        | .ok isaEntry =>
          match hci : cook_raw_slot isaEntry with
          | .frm isaf => get_slot_names isaf true seen_ako
          | .str _ => .error "slot names of a non-frame isa value"
          | .lst _ => .error "slot names of a non-frame isa value"
        : Except String (Finset String))
      else .ok (∅ : Finset String)) with
    | .error e => .error e
    | .ok b => .ok (f.own.foldl (snStep seen_isa seen_ako) (a ∪ b))
termination_by sizeOf f
decreasing_by
  · exact sizeOf_cook_frm (get_raw_slot_ok_found hga) hca
  · exact sizeOf_cook_frm (get_raw_slot_ok_found hgi) hci

/-! ### Lemmas about the own-slot loop of `get_slot_names` -/

theorem foldl_snStep_not_mem (si sa : Bool) (k : String) :
    ∀ (entries : List (String × EntryF)) (acc : Finset String),
      k ∉ acc →
      (∀ e ∈ entries, e.1 = k →
        (isDeletedEntry e.2 = true
          ∨ (k = "FRAME_NAME" ∧ (si = true ∨ sa = true))
          ∨ (k = "AKO" ∧ si = true))) →
      k ∉ entries.foldl (snStep si sa) acc := by
  intro entries
  induction entries with
  | nil => intro acc hacc _; exact hacc
  | cons e rest ih =>
    intro acc hacc hcond
    rw [List.foldl_cons]
    refine ih _ ?_ (fun e2 he2 => hcond e2 (List.mem_cons_of_mem e he2))
    unfold snStep
    split
    · intro hk
      exact hacc (Finset.mem_of_mem_erase hk)
    · split
      · exact hacc
      · rename_i hdel hskip
        intro hk
        rcases Finset.mem_insert.1 hk with hke | hk2
        · rcases hcond e (List.mem_cons_self _ _) hke.symm with hd | hs | ha2
          · exact hdel hd
          · exact hskip (Or.inl ⟨hke.symm.trans hs.1, hs.2⟩)
          · exact hskip (Or.inr ⟨hke.symm.trans ha2.1, ha2.2⟩)
        · exact hacc hk2

theorem foldl_snStep_deleted_not_mem (si sa : Bool) (k : String)
    (pre post : List (String × EntryF)) (d : EntryF)
    (hd : isDeletedEntry d = true)
    (hpost : ∀ e ∈ post, e.1 ≠ k) (acc : Finset String) :
    k ∉ (pre ++ (k, d) :: post).foldl (snStep si sa) acc := by
  rw [List.foldl_append, List.foldl_cons]
  refine foldl_snStep_not_mem si sa k post _ ?_
    (fun e he hek => absurd hek (hpost e he))
  show k ∉ snStep si sa _ (k, d)
  unfold snStep
  rw [if_pos hd]
  exact Finset.not_mem_erase k _

theorem lookup_split {f : FrameF} {k : String} {e : EntryF}
    (hkeys : (f.own.map Prod.fst).Nodup)
    (h : lookupRaw f k = some e) :
    ∃ pre post, f.own = pre ++ (k, e) :: post ∧ ∀ e2 ∈ post, e2.1 ≠ k := by
  unfold lookupRaw at h
  rw [Option.map_eq_some'] at h
  obtain ⟨⟨k2, e2⟩, hfind, he⟩ := h
  obtain ⟨hp, pre, post, heq, _⟩ := List.find?_eq_some.1 hfind
  have hk2 : k2 = k := by simpa using hp
  have he2 : e2 = e := he
  subst hk2
  subst he2
  refine ⟨pre, post, heq, ?_⟩
  rw [heq, List.map_append, List.map_cons] at hkeys
  have h2 := (List.nodup_append.1 hkeys).2.1
  have h3 := (List.nodup_cons.1 h2).1
  intro e3 he3 he3k
  exact h3 (List.mem_map.2 ⟨e3, he3, he3k⟩)

theorem found_false_of_lookup {f : FrameF} {name : String} {e : EntryF}
    (h : lookupRaw f (strUpper name) = some e) :
    get_raw_slot_found f name false = some e := by
  unfold get_raw_slot_found
  rw [h]
  rfl

/-- Every successful `get_slot_names` result is the own-slot loop run over
some starting accumulator (the union of the inherited name sets). -/
theorem get_slot_names_ok_shape {f : FrameF} {si sa : Bool} {s : Finset String}
    (h : get_slot_names f si sa = .ok s) :
    ∃ acc, s = f.own.foldl (snStep si sa) acc := by
  rw [get_slot_names] at h
  split at h
  · exact absurd h (by simp)
  · split at h
    · exact absurd h (by simp)
    · injection h with h2
      exact ⟨_, h2.symm⟩

/-- Inside any inherited walk (`seen_isa` or `seen_ako` set), `FRAME_NAME`
never appears in the computed name set: own `FRAME_NAME` slots are skipped
and, recursively, so are the ancestors'. -/
theorem get_slot_names_no_frame_name :
    ∀ (n : ℕ) (f : FrameF), sizeOf f ≤ n → ∀ (si sa : Bool),
      (si = true ∨ sa = true) →
      ∀ s, get_slot_names f si sa = .ok s → "FRAME_NAME" ∉ s := by
  intro n
  induction n with
  | zero =>
    intro f hf
    exfalso
    rcases f with ⟨i, own⟩
    simp only [FrameF.mk.sizeOf_spec] at hf
    omega
  | succ n ih =>
    intro f hf si sa hflag s h
    rw [get_slot_names] at h
    split at h
    · exact absurd h (by simp)
    · rename_i a hA
      split at h
      · exact absurd h (by simp)
      · rename_i b hB
        injection h with h2
        subst h2
        have hnotunion : "FRAME_NAME" ∉ a ∪ b := by
          rw [Finset.mem_union]
          rintro (hin | hin)
          · revert hin
            split at hA
            · split at hA
              · exact absurd hA (by simp)
              · rename_i akoEntry hga
                split at hA
                · rename_i ako hca
                  have hsz : sizeOf ako ≤ n := by
                    have := sizeOf_cook_frm (get_raw_slot_ok_found hga) hca
                    omega
                  exact ih ako hsz si true (Or.inr rfl) a hA
                · exact absurd hA (by simp)
                · exact absurd hA (by simp)
            · injection hA with hA2
              rw [← hA2]
              exact Finset.not_mem_empty _
          · revert hin
            split at hB
            · split at hB
              · exact absurd hB (by simp)
              · rename_i isaEntry hgi
                split at hB
                · rename_i isaf hci
                  have hsz : sizeOf isaf ≤ n := by
                    have := sizeOf_cook_frm (get_raw_slot_ok_found hgi) hci
                    omega
                  exact ih isaf hsz true sa (Or.inl rfl) b hB
                · exact absurd hB (by simp)
                · exact absurd hB (by simp)
            · injection hB with hB2
              rw [← hB2]
              exact Finset.not_mem_empty _
        exact foldl_snStep_not_mem si sa "FRAME_NAME" f.own (a ∪ b) hnotunion
          (fun e _ _ => Or.inr (Or.inl ⟨rfl, hflag⟩))

/-- C7: a slot row carrying the `<DELETED>` sentinel under the active
version context shadows inheritance: `get_raw_slot_inherited` raises
instead of returning the inherited value, and `get_slot_names` excludes the
name; moreover `frame_name` is never contributed by an inherited frame —
without an own `frame_name` slot, `get_raw_slot_inherited` raises without
consulting `ako`/`isa` and `get_slot_names` never lists `FRAME_NAME`. -/
theorem C7_deletion_shadowing (f : FrameF) (name : String) (sid : ℕ) (dv : String)
    (hkeys : (f.own.map Prod.fst).Nodup)
    (hdel : lookupRaw f (strUpper name) = some (.scalar sid dv))
    (hdv : strUpper dv = "<DELETED>") :
    (∃ e, get_raw_slot_inherited f name true = .error e)
    ∧ (∀ s, get_slot_names f false false = .ok s → strUpper name ∉ s)
    ∧ (lookupRaw f "FRAME_NAME" = none →
        (∃ e, get_raw_slot_inherited f "frame_name" true = .error e)
        ∧ (∀ s, get_slot_names f false false = .ok s → "FRAME_NAME" ∉ s)) := by
  have hdent : isDeletedEntry (EntryF.scalar sid dv) = true := by
    simp [isDeletedEntry, hdv]
  refine ⟨?_, ?_, ?_⟩
  · refine ⟨labelString (frame_label f) ++ "." ++ name ++ " deleted", ?_⟩
    rw [get_raw_slot_inherited, found_false_of_lookup hdel]
    simp only [hdent, if_true]
  · intro s hs
    obtain ⟨acc, hacc⟩ := get_slot_names_ok_shape hs
    obtain ⟨pre, post, hsplit, hpost⟩ := lookup_split hkeys hdel
    rw [hacc, hsplit]
    exact foldl_snStep_deleted_not_mem false false (strUpper name) pre post _
      hdent hpost acc
  · intro hno
    have hfound : get_raw_slot_found f "frame_name" false = none := by
      unfold get_raw_slot_found
      rw [show strUpper "frame_name" = "FRAME_NAME" from by decide, hno]
    constructor
    · refine ⟨toString f.fid ++ "." ++ "frame_name", ?_⟩
      rw [get_raw_slot_inherited, hfound]
      rw [if_neg (by
        rintro ⟨hne, _⟩
        exact hne (by decide))]
      unfold get_raw_slot
      rw [hfound, if_neg (by decide : ¬(strUpper "frame_name" ≠ "FRAME_NAME"))]
    · intro s hs
      have hnoown : ∀ e ∈ f.own, e.1 ≠ "FRAME_NAME" := by
        intro e he
        have hf2 : f.own.find? (fun p => p.1 == "FRAME_NAME") = none :=
          Option.map_eq_none'.1 hno
        have := List.find?_eq_none.1 hf2 e he
        simpa using this
      rw [get_slot_names] at hs
      split at hs
      · exact absurd hs (by simp)
      · rename_i a hA
        split at hs
        · exact absurd hs (by simp)
        · rename_i b hB
          injection hs with h2
          subst h2
          have hnotunion : "FRAME_NAME" ∉ a ∪ b := by
            rw [Finset.mem_union]
            rintro (hin | hin)
            · revert hin
              split at hA
              · split at hA
                · exact absurd hA (by simp)
                · rename_i akoEntry hga
                  split at hA
                  · rename_i ako hca
                    exact get_slot_names_no_frame_name (sizeOf ako) ako le_rfl
                      false true (Or.inr rfl) a hA
                  · exact absurd hA (by simp)
                  · exact absurd hA (by simp)
              · injection hA with hA2
                rw [← hA2]
                exact Finset.not_mem_empty _
            · revert hin
              split at hB
              · split at hB
                · exact absurd hB (by simp)
                · rename_i isaEntry hgi
                  split at hB
                  · rename_i isaf hci
                    exact get_slot_names_no_frame_name (sizeOf isaf) isaf le_rfl
                      true false (Or.inl rfl) b hB
                  · exact absurd hB (by simp)
                  · exact absurd hB (by simp)
              · injection hB with hB2
                rw [← hB2]
                exact Finset.not_mem_empty _
          exact foldl_snStep_not_mem false false "FRAME_NAME" f.own (a ∪ b)
            hnotunion (fun e he hek => absurd hek (hnoown e he))

/-- A concrete frame with a deleted own `size` slot and an `ako` parent that
carries both `size` and `frame_name`. -/
def exParent : FrameF :=
  .mk 8 [("SIZE", .scalar 3 "10"), ("FRAME_NAME", .scalar 4 "G")]

def exChild : FrameF :=
  .mk 7 [("SIZE", .scalar 1 "<DELETED>"), ("AKO", .fref 2 "G" exParent)]

/-- Closed instance of `C7_deletion_shadowing` on `exChild`, whose `ako`
parent does carry a non-deleted `size` and a `frame_name`. -/
theorem C7_deletion_shadowing_witness :
    (exChild.own.map Prod.fst).Nodup
    ∧ lookupRaw exChild (strUpper "size") = some (.scalar 1 "<DELETED>")
    ∧ strUpper "<DELETED>" = "<DELETED>"
    ∧ ((∃ e, get_raw_slot_inherited exChild "size" true = .error e)
      ∧ (∀ s, get_slot_names exChild false false = .ok s → strUpper "size" ∉ s)
      ∧ (lookupRaw exChild "FRAME_NAME" = none →
          (∃ e, get_raw_slot_inherited exChild "frame_name" true = .error e)
          ∧ (∀ s, get_slot_names exChild false false = .ok s → "FRAME_NAME" ∉ s))) :=
  ⟨by decide, rfl, by decide,
   C7_deletion_shadowing exChild "size" 1 "<DELETED>" (by decide) rfl (by decide)⟩

/-- The frame has no usable own `frame_name` slot: the key is absent, or the
stored value is the `<DELETED>` sentinel. -/
def frame_name_missing (f : FrameF) : Prop :=
  match lookupRaw f "FRAME_NAME" with
  | none => True
  | some e => isDeletedEntry e = true

/-- C10: `frame_label` is total (it is a function of this development, whose
acceptance by the termination checker is its termination proof) and, when the
frame has no `frame_name` slot or only a deleted one, the inner
`get_raw_slot` raises an error whose message is built from the numeric
`frame_id` — never re-entering `frame_label` — and `frame_label` returns
the frame's own integer `frame_id`; the last conjunct re-states the model's
`frame_label` as the source's try/except around `get_raw_slot`. -/
theorem C10_frame_label_total (f : FrameF) (hmiss : frame_name_missing f) :
    get_raw_slot f "frame_name" true
      = .error (toString f.fid ++ "." ++ "frame_name")
    ∧ frame_label f = .id f.fid
    ∧ frame_label f = (match get_raw_slot f "frame_name" true with
        | .ok e => .val (cook_raw_slot e)
        | .error _ => .id f.fid) := by
  have hfound : get_raw_slot_found f "frame_name" true = none := by
    unfold get_raw_slot_found
    rw [show strUpper "frame_name" = "FRAME_NAME" from by decide]
    unfold frame_name_missing at hmiss
    cases hl : lookupRaw f "FRAME_NAME" with
    | none => rfl
    | some e =>
      rw [hl] at hmiss
      simp [hmiss]
  refine ⟨?_, ?_, frame_label_eq_catch f⟩
  · unfold get_raw_slot
    rw [hfound, if_neg (by decide : ¬(strUpper "frame_name" ≠ "FRAME_NAME"))]
  · unfold frame_label
    rw [hfound]

/-- Closed instance of `C10_frame_label_total` on a frame with no slots at
all. -/
theorem C10_frame_label_total_witness :
    frame_name_missing (FrameF.mk 70 [])
    ∧ (get_raw_slot (FrameF.mk 70 []) "frame_name" true
        = .error (toString (FrameF.mk 70 []).fid ++ "." ++ "frame_name")
      ∧ frame_label (FrameF.mk 70 []) = .id (FrameF.mk 70 []).fid
      ∧ frame_label (FrameF.mk 70 [])
          = (match get_raw_slot (FrameF.mk 70 []) "frame_name" true with
            | .ok e => .val (cook_raw_slot e)
            | .error _ => .id (FrameF.mk 70 []).fid)) :=
  ⟨trivial, C10_frame_label_total (FrameF.mk 70 []) trivial⟩

end Frames

deriving instance DecidableEq for Except

namespace Frames

/-- A context frozen because its only active version is final, and a small
database with one slot attached to versions `{1, 2}`. -/
def frozenCtx : VersionCtx := { frozen := true, version_ids := [1], user_id := 1 }

def thawedCtx : VersionCtx := { frozen := false, version_ids := [1], user_id := 1 }

def dbOneSlot : DB :=
  { slots := [(5, ⟨1, "color", .str "red", .null, .null⟩)],
    slot_versions := [(5, 1), (5, 2)],
    next_slot_id := 6 }

/-- C4 (failing-input evaluation): updating slot 5 — attached to versions
`{1, 2}` while the active set is `{1}` — with value `"blue"` and position
`1000` creates the new slot row with `value = 1000` and
`value_order = "blue"`: `update_slot` passes its `value_order` and `value`
arguments to `create_slot` in swapped positions, so the new row does not
carry the given value and position as the claim states. -/
theorem C4_update_slot_swaps_value_and_position :
    update_slot thawedCtx dbOneSlot 5 (.str "blue") (.num 1000) .null =
      .ok ({ slots := [(5, ⟨1, "color", .str "red", .null, .null⟩),
                       (6, ⟨1, "color", .num 1000, .str "blue", .null⟩)],
             slot_versions := [(5, 1), (5, 2), (6, 1)],
             next_slot_id := 7 }, 6) := by decide

/-- C5 counterexample: under a frozen context, `delete_slot` does not raise —
it returns a changed database (the claim says every mutation entry point
raises and leaves rows unchanged) — and `create_list` with an empty values
list succeeds without error. -/
theorem C5_frozen_counterexample :
    frozenCtx.frozen = true
    ∧ delete_slot frozenCtx dbOneSlot 5 ≠ dbOneSlot
    ∧ create_list frozenCtx dbOneSlot 1 "xs" [] = .ok (dbOneSlot, []) := by decide

/-- C5 as amended: under a frozen context, `create_slot` and `update_slot`
raise the frozen-versions error (before touching any row), `create_list`
raises iff its values list is non-empty (via its first `create_slot` call),
and `delete_slot` ignores the frozen flag entirely: it behaves identically
under any context. -/
theorem C5_frozen_mutations_amended (ctx : VersionCtx) (db : DB)
    (hfrozen : ctx.frozen = true) :
    (∀ frame_id name value value_order description,
      create_slot ctx db frame_id name value value_order description
        = .error .frozenVersions)
    ∧ (∀ slot_id value value_order description,
      update_slot ctx db slot_id value value_order description
        = .error .frozenVersions)
    ∧ (∀ frame_id name values, values ≠ ([] : List PyVal) →
      create_list ctx db frame_id name values = .error .frozenVersions)
    ∧ (∀ ctx2 slot_id, delete_slot ctx db slot_id = delete_slot ctx2 db slot_id) := by
  refine ⟨?_, ?_, ?_, ?_⟩
  · intro frame_id name value value_order description
    simp [create_slot, hfrozen]
  · intro slot_id value value_order description
    simp [update_slot, hfrozen]
  · intro frame_id name values hvals
    match values, hvals with
    | v :: rest, _ =>
      simp only [create_list, create_slot, hfrozen, List.enumFrom, List.foldlM,
        if_true]
      rfl
  · intro ctx2 slot_id
    rfl

/-- Closed instance of `C5_frozen_mutations_amended` at the frozen context
and one-slot database. -/
theorem C5_frozen_mutations_amended_witness :
    frozenCtx.frozen = true
    ∧ create_slot frozenCtx dbOneSlot 1 "n" (.str "v") .null .null
        = .error .frozenVersions
    ∧ update_slot frozenCtx dbOneSlot 5 (.str "v") .null .null
        = .error .frozenVersions
    ∧ create_list frozenCtx dbOneSlot 1 "n" [.str "a"] = .error .frozenVersions
    ∧ delete_slot frozenCtx dbOneSlot 5 = delete_slot thawedCtx dbOneSlot 5 :=
  ⟨rfl,
   (C5_frozen_mutations_amended frozenCtx dbOneSlot rfl).1 1 "n" (.str "v") .null .null,
   (C5_frozen_mutations_amended frozenCtx dbOneSlot rfl).2.1 5 (.str "v") .null .null,
   (C5_frozen_mutations_amended frozenCtx dbOneSlot rfl).2.2.1 1 "n" [.str "a"]
     (by decide),
   (C5_frozen_mutations_amended frozenCtx dbOneSlot rfl).2.2.2 thawedCtx 5⟩

/-! ### Frame materialization in frame_obj.py (`frame.from_raw_data`,
src/frame_obj.py lines 744-767)

`from_raw_data` consumes `Frame_slot` rows that its contract requires to be
sorted by `name, slot_list_order`; the rows are produced by an SQL query
(`get_selected_slots`, whose definition is not part of src/) with SQLite
`ORDER BY` semantics, under which `NULL` sorts before every value, so inside
one name group a null-order row comes first.  These two input facts appear
as the hypotheses of the C9 theorem. -/

/-- A `Frame_slot` row as read by `from_raw_data`: `slot_list_order` is
`NULL` for scalar slots. -/
structure RowO where
  slot_id : ℕ
  name : String
  value : String
  slot_list_order : Option ℚ
deriving DecidableEq

/-- A `raw_slots` dict value built by `from_raw_data`: a single row or a
`slot_list`. -/
inductive EntryO9 where
  | single (row : RowO)
  | multi (rows : List RowO)
deriving DecidableEq

/-- The structural `AssertionError` of `make_value` (src/frame_obj.py lines
757-761), naming the two offending slot ids. -/
inductive ShapeErr where
  | nullOrderInMulti (slot_id next_slot_id : ℕ)
deriving DecidableEq

/-- Character-wise lower casing, the effect of Python's `str.lower()` on the
ASCII slot names this system uses. -/
def strLower (s : String) : String := ⟨s.data.map Char.toLower⟩

/-- Embedding of the nested `make_value` (src/frame_obj.py lines 753-764):
the first row of a name group decides the shape; a null `slot_list_order`
followed by another row raises the structural error; a non-null first order
builds a `slot_list` from the whole group.  `[]` never occurs (groupby
groups are non-empty). -/
def make_value : List RowO → Except ShapeErr EntryO9
  | [] => .ok (.multi [])
  | r :: rest =>
    match r.slot_list_order with
    | Option.none =>
      match rest with
      | [] => .ok (.single r)
      | r2 :: _ => .error (.nullOrderInMulti r.slot_id r2.slot_id)
    | some _ => .ok (.multi (r :: rest))

/-- Embedding of the grouping loop of `from_raw_data` (src/frame_obj.py
lines 765-766): `itertools.groupby` over the name-sorted rows — unfolded as
maximal runs of equal names — building `raw_slots[name.lower()]`. -/
def from_raw_data : List RowO → Except ShapeErr (List (String × EntryO9))
  | [] => .ok []
  | r :: rest =>
    match make_value (r :: rest.takeWhile (fun r2 => r2.name == r.name)) with
    | .error e => .error e
    | .ok v =>
      match from_raw_data (rest.dropWhile (fun r2 => r2.name == r.name)) with
      | .error e => .error e
      | .ok m => .ok ((strLower r.name, v) :: m)
termination_by l => l.length
decreasing_by
  simp only [List.length_cons]
  exact Nat.lt_succ_of_le (List.dropWhile_sublist _).length_le

/-- In a name-sorted row list, every row left over after dropping the head's
name run has a different (strictly larger) name. -/
theorem dropWhile_name_ne {r : RowO} {rest : List RowO}
    (hsorted : List.Pairwise (fun a b : RowO => a.name ≤ b.name) (r :: rest)) :
    ∀ y ∈ rest.dropWhile (fun r2 => r2.name == r.name), y.name ≠ r.name := by
  induction rest with
  | nil => intro y hy; simp [List.dropWhile] at hy
  | cons x xs ih =>
    intro y hy
    rw [List.dropWhile] at hy
    by_cases hx : x.name = r.name
    · have hb : (x.name == r.name) = true := by simpa using hx
      simp only [hb] at hy
      have hsub : List.Pairwise (fun a b : RowO => a.name ≤ b.name) (r :: xs) :=
        hsorted.sublist ((List.sublist_cons_self x xs).cons₂ r)
      exact ih hsub y hy
    · have hb : (x.name == r.name) = false := by simpa using hx
      simp only [hb] at hy
      intro hyr
      rcases List.mem_cons.1 hy with rfl | hyxs
      · exact hx hyr
      · have hxy : x.name ≤ y.name := by
          have hx2 := List.pairwise_cons.1 ((List.pairwise_cons.1 hsorted).2)
          exact hx2.1 y hyxs
        have hrx : r.name ≤ x.name :=
          (List.pairwise_cons.1 hsorted).1 x (List.mem_cons_self _ _)
        exact hx (le_antisymm (hyr ▸ hxy) hrx)

/-- Rows kept by `takeWhile` on the head's name run all carry the head's
name. -/
theorem takeWhile_name_eq {r : RowO} {rest : List RowO} :
    ∀ y ∈ rest.takeWhile (fun r2 => r2.name == r.name), y.name = r.name := by
  intro y hy
  have := List.mem_takeWhile_imp hy
  simpa using this

/-- C9: materializing a raw frame in which some slot name has both a
null-position row and a non-null-position row raises the structural error:
the name group (maximal under the sorted order hypothesis) starts with a
null-position row (nulls-first hypothesis) and has at least two rows, so
`make_value` raises and `from_raw_data` propagates. -/
theorem C9_mixed_shape_raises :
    ∀ (n : ℕ) (rows : List RowO), rows.length ≤ n →
    List.Pairwise (fun a b : RowO => a.name ≤ b.name) rows →
    List.Pairwise (fun a b : RowO => a.name = b.name →
      b.slot_list_order = Option.none → a.slot_list_order = Option.none) rows →
    (∃ r1 ∈ rows, ∃ r2 ∈ rows, r1.name = r2.name
      ∧ r1.slot_list_order = Option.none ∧ r2.slot_list_order ≠ Option.none) →
    ∃ e, from_raw_data rows = .error e := by
  intro n
  induction n with
  | zero =>
    rintro rows hlen _ _ ⟨r1, hr1, _⟩
    rw [List.length_eq_zero.1 (Nat.le_zero.1 hlen)] at hr1
    exact absurd hr1 (List.not_mem_nil r1)
  | succ n ih =>
    rintro rows hlen hsorted hnulls ⟨r1, hr1, r2, hr2, hname, h1null, h2null⟩
    match rows, hr1, hr2, hlen, hsorted, hnulls with
    | r :: rest, hr1, hr2, hlen, hsorted, hnulls =>
      by_cases hcase : r1.name = r.name
      · -- the offending group is the head group: its head row is null-order
        -- and the group contains the non-null r2 as well
        have hrnull : r.slot_list_order = Option.none := by
          rcases List.mem_cons.1 hr1 with rfl | hr1tl
          · exact h1null
          · exact (List.pairwise_cons.1 hnulls).1 r1 hr1tl hcase.symm h1null
        have hr2name : r2.name = r.name := hname ▸ hcase
        have hr2grp : r2 ∈ rest.takeWhile (fun x => x.name == r.name) := by
          rcases List.mem_cons.1 hr2 with rfl | hr2tl
          · exact absurd hrnull h2null
          · have : r2 ∉ rest.dropWhile (fun x => x.name == r.name) :=
              fun hmem => dropWhile_name_ne hsorted r2 hmem hr2name
            have hsplit : rest.takeWhile (fun x : RowO => x.name == r.name) ++
                rest.dropWhile (fun x => x.name == r.name) = rest :=
              List.takeWhile_append_dropWhile _ _
            rcases List.mem_append.1 (by rw [hsplit]; exact hr2tl) with h | h
            · exact h
            · exact absurd h this
        obtain ⟨g2, grest, hgrp⟩ : ∃ g2 grest,
            rest.takeWhile (fun x => x.name == r.name) = g2 :: grest := by
          cases hg : rest.takeWhile (fun x => x.name == r.name) with
          | nil => rw [hg] at hr2grp; exact absurd hr2grp (List.not_mem_nil r2)
          | cons g2 grest => exact ⟨g2, grest, rfl⟩
        refine ⟨.nullOrderInMulti r.slot_id g2.slot_id, ?_⟩
        simp only [from_raw_data, hgrp]
        simp only [make_value, hrnull]
      · -- both offending rows live past the head group; recurse
        have hr1tl : r1 ∈ rest := by
          rcases List.mem_cons.1 hr1 with rfl | h
          · exact absurd rfl hcase
          · exact h
        have hr2tl : r2 ∈ rest := by
          rcases List.mem_cons.1 hr2 with rfl | h
          · exact absurd (hname.symm ▸ hcase) (fun hc => hc rfl)
          · exact h
        have hr1drop : r1 ∈ rest.dropWhile (fun x => x.name == r.name) := by
          have hsplit : rest.takeWhile (fun x : RowO => x.name == r.name) ++
              rest.dropWhile (fun x => x.name == r.name) = rest :=
            List.takeWhile_append_dropWhile _ _
          rcases List.mem_append.1 (by rw [hsplit]; exact hr1tl) with h | h
          · exact absurd (takeWhile_name_eq r1 h) hcase
          · exact h
        have hr2drop : r2 ∈ rest.dropWhile (fun x => x.name == r.name) := by
          have hsplit : rest.takeWhile (fun x : RowO => x.name == r.name) ++
              rest.dropWhile (fun x => x.name == r.name) = rest :=
            List.takeWhile_append_dropWhile _ _
          rcases List.mem_append.1 (by rw [hsplit]; exact hr2tl) with h | h
          · exact absurd (hname ▸ takeWhile_name_eq r2 h) hcase
          · exact h
        have hsub : (rest.dropWhile (fun x => x.name == r.name)).Sublist (r :: rest) :=
          (List.dropWhile_sublist _).trans (List.sublist_cons_self r rest)
        have hlen2 : (rest.dropWhile (fun x => x.name == r.name)).length ≤ n := by
          have hdle : (rest.dropWhile (fun x : RowO => x.name == r.name)).length ≤
              rest.length := (List.dropWhile_sublist _).length_le
          simp only [List.length_cons] at hlen
          omega
        obtain ⟨e, he⟩ := ih (rest.dropWhile (fun x => x.name == r.name)) hlen2
          (hsorted.sublist hsub) (hnulls.sublist hsub)
          ⟨r1, hr1drop, r2, hr2drop, hname, h1null, h2null⟩
        simp only [from_raw_data]
        cases hmv : make_value (r :: rest.takeWhile (fun x => x.name == r.name)) with
        | error e2 => exact ⟨e2, rfl⟩
        | ok v =>
          rw [he]
          exact ⟨e, rfl⟩

/-- Closed instance of `C9_mixed_shape_raises`: one name `size` with a
null-order row followed by a positioned row. -/
theorem C9_mixed_shape_raises_witness :
    (([⟨1, "size", "10", Option.none⟩, ⟨2, "size", "11", some 1000⟩] :
        List RowO).length ≤ 2)
    ∧ List.Pairwise (fun a b : RowO => a.name ≤ b.name)
        [⟨1, "size", "10", Option.none⟩, ⟨2, "size", "11", some 1000⟩]
    ∧ List.Pairwise (fun a b : RowO => a.name = b.name →
        b.slot_list_order = Option.none → a.slot_list_order = Option.none)
        [⟨1, "size", "10", Option.none⟩, ⟨2, "size", "11", some 1000⟩]
    ∧ ∃ e, from_raw_data
        [⟨1, "size", "10", Option.none⟩, ⟨2, "size", "11", some 1000⟩] = .error e :=
  ⟨by decide, by simp, by decide,
   C9_mixed_shape_raises 2
    [⟨1, "size", "10", Option.none⟩, ⟨2, "size", "11", some 1000⟩]
    (by decide) (by simp) (by decide)
    ⟨⟨1, "size", "10", Option.none⟩, by decide, ⟨2, "size", "11", some 1000⟩,
      by decide, rfl, rfl, by decide⟩⟩

/-! ### Claim C6 — list-value inheritance
(src/frame_obj.py lines 913-954 `frame.get_inherited_values` and lines
1207-1216 `dynamic_slot_list.inherit_values`)

The `raw_slots` dict of a frame_obj.py frame maps `name.lower()` to the
entry (`from_raw_data`, line 766), while `get_inherited_values` reaches its
parents with `fetch('ISA', False)` and `fetch('AKO', True)` whose first act
is the exact-key membership test `slot in self.raw_slots` with the
uppercase literal.  The frames here carry no spliced-in slots, under which
`get_raw_slot` coincides with `get_my_raw_slot` (the splice loop body never
runs, and for the link names `isa`/`ako` it is skipped outright). -/

mutual
inductive EntryO where
  | scalar (row : RowO)
  | fref (row : RowO) (f : FrameO)
  | slist (rows : List RowO)

inductive FrameO where
  | mk (frame_id : ℕ) (raw_slots : List (String × EntryO))
end

def FrameO.raw_slots : FrameO → List (String × EntryO)
  | .mk _ s => s

/-- Exact-key dict lookup in a frame_obj.py `raw_slots` dict; also the
membership test `slot in self.raw_slots` (via `.isSome`). -/
def lookupRawO (f : FrameO) (key : String) : Option EntryO :=
  (f.raw_slots.find? (fun e => e.1 == key)).map (fun e => e.2)

/-- The test `not isinstance(ans, slot_list) and ans['value'].upper() ==
'<DELETED>'` of `get_my_raw_slot` (src/frame_obj.py lines 995-996). -/
def isDeletedEntryO : EntryO → Bool
  | .scalar r => strUpper r.value == "<DELETED>"
  | _ => false

/-- Embedding of `frame.get_my_raw_slot` (src/frame_obj.py lines 980-1001):
lowercased-key lookup, returning `none` where the source raises
`AttributeError` (whose message no caller of interest inspects). -/
def get_my_raw_slotO (f : FrameO) (slot_name : String)
    (deleted_is_error : Bool) : Option EntryO :=
  match lookupRawO f (strLower slot_name) with
  | some ans => if !deleted_is_error || !isDeletedEntryO ans then some ans else none
  | none => none

/-- The part of `frame.cook_raw_slot` (src/frame_obj.py lines 1003-1032)
that `fetch` relies on: a `$`-reference cooks into the referenced frame
(pre-resolved in the `fref` entry, as in the frames.py embedding above);
any other cooked value is not a frame and the subsequent attribute access
on it raises. -/
def cook_frameO : EntryO → Option FrameO
  | .fref _ g => some g
  | _ => none

/-- The `ans` dict of `get_inherited_values`: `{slot_list_order: raw_slot}`
in insertion order. -/
abbrev InhDict := List (Option ℚ × RowO)

/-- Python dict assignment `ans[k] = v`: replace in place, else append. -/
def dset (d : InhDict) (k : Option ℚ) (v : RowO) : InhDict :=
  if d.any (fun e => e.1 == k) then d.map (fun e => if e.1 == k then (e.1, v) else e)
  else d ++ [(k, v)]

/-- Python `if k in ans: del ans[k]`. -/
def ddel (d : InhDict) (k : Option ℚ) : InhDict :=
  d.filter (fun e => !(e.1 == k))

/-- Python `ans.update(other)`. -/
def dupdate (d other : InhDict) : InhDict :=
  other.foldl (fun acc e => dset acc e.1 e.2) d

/-- One iteration of the `for daddy_slot in daddy_list.iter_raw_slots()`
loop of `fetch` (src/frame_obj.py lines 945-950): a `<DELETED>` row deletes
its position from `ans`, any other row is stored under its position. -/
def fetchRowStep (acc : InhDict) (row : RowO) : InhDict :=
  if strUpper row.value == "<DELETED>" then ddel acc row.slot_list_order
  else dset acc row.slot_list_order row

theorem lookupRawO_of_get_my {f : FrameO} {s : String} {d : Bool} {e : EntryO}
    (h : get_my_raw_slotO f s d = some e) : lookupRawO f (strLower s) = some e := by
  unfold get_my_raw_slotO at h
  split at h
  · rename_i a hl
    split at h
    · rw [hl]
      injection h with h2
      rw [h2]
    · exact absurd h (by simp)
  · exact absurd h (by simp)

theorem sizeOf_cook_frameO {f : FrameO} {k : String} {e : EntryO} {g : FrameO}
    (hlook : lookupRawO f k = some e) (hcook : cook_frameO e = some g) :
    sizeOf g < sizeOf f := by
  have hfref : ∃ r, e = .fref r g := by
    cases e with
    | scalar r => exact absurd hcook (by simp [cook_frameO])
    | fref r h =>
      have hg : h = g := by simpa [cook_frameO] using hcook
      exact ⟨r, congrArg (EntryO.fref r) hg⟩
    | slist rows => exact absurd hcook (by simp [cook_frameO])
  obtain ⟨r, rfl⟩ := hfref
  rcases f with ⟨i, slots⟩
  simp only [lookupRawO, FrameO.raw_slots, Option.map_eq_some'] at hlook
  obtain ⟨⟨k2, e2⟩, hfind, he2⟩ := hlook
  have hmem := List.mem_of_find?_eq_some hfind
  have h1 : sizeOf ((k2, e2) : String × EntryO) < sizeOf slots :=
    List.sizeOf_lt_of_mem hmem
  have h2 : sizeOf e2 < sizeOf ((k2, e2) : String × EntryO) := by
    simp only [Prod.mk.sizeOf_spec]; omega
  have h3 : sizeOf g < sizeOf e2 := by
    rw [show e2 = EntryO.fref r g from he2]
    simp only [EntryO.fref.sizeOf_spec]
    omega
  simp only [FrameO.mk.sizeOf_spec]
  change sizeOf g < 1 + sizeOf i + sizeOf slots
  omega

mutual

/-- Embedding of `frame.get_inherited_values` (src/frame_obj.py lines
913-954): `ans = {}`, then `fetch('ISA', False)` when `try_isa`, then
`fetch('AKO', True)` on the accumulated dict; an uncaught exception inside
either `fetch` propagates. -/
def get_inherited_valuesO (f : FrameO) (slot_name : String) (try_isa : Bool) :
    Except Unit InhDict :=
  match (if try_isa then fetchO f slot_name [] "ISA" false else .ok []) with
  | .error e => .error e
  | .ok ans1 => fetchO f slot_name ans1 "AKO" true
termination_by (sizeOf f, 1)
decreasing_by
  · exact Prod.Lex.right _ (by omega)
  · exact Prod.Lex.right _ (by omega)

/-- Embedding of the nested `fetch(slot, try_isa)` (src/frame_obj.py lines
921-950).  The guard is the exact-key test `slot in self.raw_slots` with
the UPPERCASE link name the two call sites pass.  When it succeeds, the
link is re-read through `self.get_raw_slot(slot)` (which lowercases, with
`deleted_is_error` defaulting to True, and is outside any `try`: a miss or
a deleted link raises out of `get_inherited_values`, modeled as `.error`),
the cooked parent's inherited values are merged with `ans.update`, and the
parent's own row list is folded in — a non-list value clears the dict. -/
def fetchO (f : FrameO) (slot_name : String) (ans : InhDict) (slot : String)
    (try_isa : Bool) : Except Unit InhDict :=
  if (lookupRawO f slot).isSome then
    match hgml : get_my_raw_slotO f slot true with
    | none => .error ()
    | some link =>
      match hcf : cook_frameO link with
      | none => .error ()
      | some daddy =>
        match get_inherited_valuesO daddy slot_name try_isa with
        | .error e => .error e
        | .ok dvals =>
          match get_my_raw_slotO daddy slot_name false with
          | none => .ok (dupdate ans dvals)
          | some (.slist rows) => .ok (rows.foldl fetchRowStep (dupdate ans dvals))
          | some _ => .ok []
  else .ok ans
termination_by (sizeOf f, 0)
decreasing_by
  · exact Prod.Lex.left _ _ (sizeOf_cook_frameO (lookupRawO_of_get_my hgml) hcf)

end

/-- Embedding of `dynamic_slot_list.inherit_values` (src/frame_obj.py lines
1207-1216): append every inherited row whose `slot_list_order` is not among
the own rows' orders, then stable-sort by `slot_list_order` (Python
`list.sort` with `itemgetter('slot_list_order')`; the numeric key applies
since every row of a slot_list carries a non-null order — `make_value`
guarantees it — so `getD 0` never fires on the orders being compared). -/
def inherit_valuesO (f : FrameO) (name : String) (own : List RowO) :
    Except Unit (List RowO) :=
  match get_inherited_valuesO f name true with
  | .error e => .error e
  | .ok inh =>
    .ok (List.insertionSort (fun a b : RowO =>
        a.slot_list_order.getD 0 ≤ b.slot_list_order.getD 0)
      (own ++ (inh.filter (fun kv =>
        !((own.map (fun x => x.slot_list_order)).contains kv.1))).map
          (fun kv => kv.2)))

/-- A dict whose keys are all lowercase (as `from_raw_data` builds them)
answers `none` to any lookup with a not-all-lowercase key. -/
theorem lookupRawO_eq_none_of_lower {f : FrameO} {key : String}
    (hkeys : ∀ p ∈ f.raw_slots, strLower p.1 = p.1) (hkey : strLower key ≠ key) :
    lookupRawO f key = none := by
  rcases f with ⟨i, slots⟩
  simp only [FrameO.raw_slots] at hkeys
  simp only [lookupRawO, FrameO.raw_slots, Option.map_eq_none']
  rw [List.find?_eq_none]
  intro p hp hbeq
  have hpk : p.1 = key := by simpa using hbeq
  exact hkey (by rw [← hpk]; exact hkeys p hp)

/-- `fetch` is the identity on `ans` when its membership test fails. -/
theorem fetchO_not_found {f : FrameO} {slot : String}
    (h : lookupRawO f slot = none) (slot_name : String) (ans : InhDict)
    (try_isa : Bool) : fetchO f slot_name ans slot try_isa = .ok ans := by
  rw [fetchO]
  simp [h]

/-- C6: the claim says resolving a list-valued slot with inheritance merges
the frame's own rows with the inherited rows (own wins position ties,
inherited rows fill the gaps).  It is refuted: `from_raw_data` keys
`raw_slots` by `name.lower()`, while `fetch`'s membership test uses the
uppercase literals `'ISA'`/`'AKO'`, so on any lowercase-keyed frame both
`fetch` calls are no-ops, `get_inherited_values` returns the empty dict,
and `inherit_values` returns exactly the own rows (sorted) — no inherited
row is ever merged, parents notwithstanding. -/
theorem C6_no_values_inherited (f : FrameO) (slot_name : String) (own : List RowO)
    (hkeys : ∀ p ∈ f.raw_slots, strLower p.1 = p.1) :
    get_inherited_valuesO f slot_name true = .ok []
    ∧ inherit_valuesO f slot_name own =
        .ok (List.insertionSort (fun a b : RowO =>
          a.slot_list_order.getD 0 ≤ b.slot_list_order.getD 0) own) := by
  have hISA : lookupRawO f "ISA" = none :=
    lookupRawO_eq_none_of_lower hkeys (by decide)
  have hAKO : lookupRawO f "AKO" = none :=
    lookupRawO_eq_none_of_lower hkeys (by decide)
  have hmain : get_inherited_valuesO f slot_name true = .ok [] := by
    rw [get_inherited_valuesO]
    simp only [if_true, fetchO_not_found hISA, fetchO_not_found hAKO]
  refine ⟨hmain, ?_⟩
  unfold inherit_valuesO
  rw [hmain]
  simp

/-- The spec's own merge example: own list at positions 1000/1002, `ako`
parent list at 1000/1001/1003.  The claim expects the four-element merge
`[1000(own), 1001(inherited), 1002(own), 1003(inherited)]`. -/
def exOwnO : List RowO :=
  [⟨31, "xs", "C0", some 1000⟩, ⟨32, "xs", "C2", some 1002⟩]

def exParentO : FrameO :=
  .mk 1 [("xs", .slist [⟨11, "xs", "P0", some 1000⟩, ⟨12, "xs", "P1", some 1001⟩,
    ⟨13, "xs", "P3", some 1003⟩]),
    ("frame_name", .scalar ⟨14, "frame_name", "P", Option.none⟩)]

def exChildO : FrameO :=
  .mk 2 [("ako", .fref ⟨21, "ako", "$P", Option.none⟩ exParentO),
    ("xs", .slist exOwnO)]

/-- Closed instance of `C6_no_values_inherited` at the spec's merge
example: despite the `ako` parent holding rows at 1000/1001/1003, the
result is the two own rows alone. -/
theorem C6_no_values_inherited_witness :
    (∀ p ∈ exChildO.raw_slots, strLower p.1 = p.1)
    ∧ get_inherited_valuesO exChildO "xs" true = .ok []
    ∧ inherit_valuesO exChildO "xs" exOwnO = .ok exOwnO := by
  have h := C6_no_values_inherited exChildO "xs" exOwnO (by decide)
  refine ⟨by decide, h.1, ?_⟩
  rw [h.2]
  decide

end Frames
